import Mathlib

/-!
# Sparse GF(2) rank engine of `flip.c`

A shallow embedding of `src/flip.c` and theorems about it.

Conventions of the embedding.

* `size_t` is the 64-bit unsigned type (the program prints it with `%lu`), so
  `SIZE_MAX = 2 ^ 64 - 1` and `sizeof(size_t) = 8`; the byte order is
  little-endian. Arithmetic on values that come from the input wraps modulo
  `2 ^ 64`.
* A `size_t` array is the list of its cells. `NULL` is the empty list.
* An access outside an allocated object is undefined behaviour in C; here it
  ends the run with `Run.fault`.
* The only unbounded loop (`while` in `get_image_dimension`) runs on fuel; an
  exhausted budget ends the run with `Run.timeout`.
* Allocation is assumed to succeed (the `assert`s pass); `printf` and
  `bit_mat_print` only read and are left out.
-/

namespace Flip

/-! ## Outcome of a run -/

/-- Outcome of running a piece of the program. -/
inductive Run (α : Type) where
  | ok : α → Run α
  | fault : Run α
  | timeout : Run α
deriving DecidableEq, Repr

/-- Sequencing of runs: the first failure ends the run. -/
def Run.bind {α β : Type} (x : Run α) (f : α → Run β) : Run β :=
  match x with
  | .ok a => f a
  | .fault => .fault
  | .timeout => .timeout

instance : Monad Run where
  pure := Run.ok
  bind := Run.bind

/-! ## Machine integers and arrays -/

/-- Largest value of `size_t`. -/
def SIZE_MAX : Nat := 2 ^ 64 - 1

/-- Bytes in one `size_t` cell. -/
def SIZEOF_SIZE_T : Nat := 8

/-- Reduction of an arithmetic result to `size_t`. -/
def size_t_wrap (x : Nat) : Nat := x % 2 ^ 64

/-- Read of `a[i]`. -/
def rd {α : Type} (a : List α) (i : Nat) : Run α :=
  match a.get? i with
  | some x => .ok x
  | none => .fault

/-- Write `a[i] = x`. -/
def wr {α : Type} (a : List α) (i : Nat) (x : α) : Run (List α) :=
  if i < a.length then .ok (a.set i x) else .fault

/-- The library call `memcpy(dst, src, n)` on two disjoint `size_t` arrays, `n` counted in
bytes. The first `n / 8` cells of `dst` become those of `src`. When `n` is not a multiple of 8
the next cell is copied in part: its `n % 8` low-order bytes come from `src`, its other bytes
stay as they were in `dst`. Copying zero bytes changes nothing. -/
def memcpy (dst src : List Nat) (n : Nat) : Run (List Nat) :=
  let full := n / SIZEOF_SIZE_T
  let part := n % SIZEOF_SIZE_T
  if part = 0 then
    if full ≤ dst.length ∧ full ≤ src.length then .ok (src.take full ++ dst.drop full)
    else .fault
  else
    match src.get? full, dst.get? full with
    | some s, some d =>
      .ok (src.take full ++ (s % 256 ^ part + d / 256 ^ part * 256 ^ part) :: dst.drop (full + 1))
    | _, _ => .fault

/-- The library call `realloc(buf, count * sizeof(size_t))`: the old cells are kept up to the
new size. Fresh cells are indeterminate; they are shown as 0 and the only caller overwrites all
of them before any read. -/
def realloc (buf : List Nat) (count : Nat) : List Nat :=
  (buf ++ List.replicate count 0).take count

/-! ## The matrix -/

/-- The struct `bit_mat_s`. `row_idx[r]` is the buffer stored at position `r` (all its allocated
cells), `row_count[r]` the number of cells in use, `row_reserved[r]` the recorded capacity. -/
structure bit_mat_s where
  row_idx : List (List Nat)
  row_count : List Nat
  row_reserved : List Nat
  dim : Nat
  alloc_cnt : Nat
deriving DecidableEq, Repr

/-- Source: `bit_mat_create`. -/
def bit_mat_create (dim : Nat) : bit_mat_s :=
  { row_idx := List.replicate dim [],
    row_count := List.replicate dim 0,
    row_reserved := List.replicate dim 0,
    dim := dim,
    alloc_cnt := 4 }

/-- Source: `bit_mat_row_reserve`. -/
def bit_mat_row_reserve (m : bit_mat_s) (row count : Nat) : Run bit_mat_s := do
  let row_idx ← rd m.row_idx row
  let reserved ← rd m.row_reserved row
  if reserved < count then
    let ri ← wr m.row_idx row (realloc row_idx count)
    let rr ← wr m.row_reserved row count
    pure { m with row_idx := ri, alloc_cnt := size_t_wrap (m.alloc_cnt + 1), row_reserved := rr }
  else
    pure m

/-- Source: `bit_mat_set_row`. The source array holds `count` cells, so the byte count
`count * sizeof(size_t)` does not wrap. -/
def bit_mat_set_row (m : bit_mat_s) (row : Nat) (row_idx : List Nat) (count : Nat) :
    Run bit_mat_s := do
  let m ← bit_mat_row_reserve m row count
  let dst ← rd m.row_idx row
  let dst ← memcpy dst row_idx (count * SIZEOF_SIZE_T)
  let ri ← wr m.row_idx row dst
  let rc ← wr m.row_count row count
  pure { m with row_idx := ri, row_count := rc }

/-- Source: `bit_mat_swap_rows`. -/
def bit_mat_swap_rows (m : bit_mat_s) (row1 row2 : Nat) : Run bit_mat_s := do
  let tmp_idx ← rd m.row_idx row1
  let idx2 ← rd m.row_idx row2
  let ri ← wr m.row_idx row1 idx2
  let ri ← wr ri row2 tmp_idx
  let tmp_cnt ← rd m.row_count row1
  let cnt2 ← rd m.row_count row2
  let rc ← wr m.row_count row1 cnt2
  let rc ← wr rc row2 tmp_cnt
  pure { m with row_idx := ri, row_count := rc }

/-! ## Rows -/

/-- Loop of `find_elem`: `n` iterations remain, the next one looks at `pos`. -/
def find_elem_loop (row_idx : List Nat) (col : Nat) : Nat → Nat → Run Nat
  | 0, _ => .ok SIZE_MAX
  | n + 1, pos => do
    let x ← rd row_idx pos
    if x = col then pure pos else find_elem_loop row_idx col n (pos + 1)

/-- Source: `find_elem`. -/
def find_elem (row_idx : List Nat) (row_count col : Nat) : Run Nat :=
  find_elem_loop row_idx col row_count 0

/-- Loop of `find_min_elem`: `n` iterations remain, the next one looks at `pos`. -/
def find_min_elem_loop (row_idx : List Nat) : Nat → Nat → Nat → Run Nat
  | 0, _, min_idx => .ok min_idx
  | n + 1, pos, min_idx => do
    let x ← rd row_idx pos
    find_min_elem_loop row_idx n (pos + 1) (if x < min_idx then x else min_idx)

/-- Source: `find_min_elem`. -/
def find_min_elem (row_idx : List Nat) (row_count : Nat) : Run Nat :=
  find_min_elem_loop row_idx row_count 0 SIZE_MAX

/-- Source: `flip_elem_unsafe`. The array is updated in place, so the new array is returned
together with the new count. On the removing branch `pos` was found below `row_count`, so
`--row_count` does not wrap. -/
def flip_elem_unsafe (row_idx : List Nat) (row_count col : Nat) : Run (List Nat × Nat) := do
  let pos ← find_elem row_idx row_count col
  if pos ≠ SIZE_MAX then
    let row_count := row_count - 1
    let last ← rd row_idx row_count
    let row_idx ← wr row_idx pos last
    pure (row_idx, row_count)
  else
    let row_idx ← wr row_idx row_count col
    pure (row_idx, size_t_wrap (row_count + 1))

/-! ## The rank engine -/

/-- Inner `for` loop of `get_image_dimension`: one flip of the scratch buffer for each of the
cells `pos, pos + 1, ...` of the pivot row; `n` iterations remain. -/
def flip_loop (pivot_idx : List Nat) : Nat → Nat → List Nat → Nat → Run (List Nat × Nat)
  | 0, _, tmp_idx, tmp_cnt => .ok (tmp_idx, tmp_cnt)
  | n + 1, pos, tmp_idx, tmp_cnt => do
    let col ← rd pivot_idx pos
    let (tmp_idx, tmp_cnt) ← flip_elem_unsafe tmp_idx tmp_cnt col
    flip_loop pivot_idx n (pos + 1) tmp_idx tmp_cnt

/-- The `while` loop of `get_image_dimension` ("sweep until we hit diagonal"). Returns the
scratch buffer, its count and the last `min_col`. -/
def sweep_loop (m : bit_mat_s) (pivot : Nat) : Nat → List Nat → Nat → Run (List Nat × Nat × Nat)
  | 0, _, _ => .timeout
  | fuel + 1, tmp_idx, tmp_cnt => do
    let min_col ← find_min_elem tmp_idx tmp_cnt
    if min_col < pivot then
      let pivot_idx ← rd m.row_idx min_col
      let pivot_cnt ← rd m.row_count min_col
      let (tmp_idx, tmp_cnt) ← flip_loop pivot_idx pivot_cnt 0 tmp_idx tmp_cnt
      sweep_loop m pivot fuel tmp_idx tmp_cnt
    else
      pure (tmp_idx, tmp_cnt, min_col)

/-- The caching step of `get_image_dimension`:
`memcpy(tmp_idx, m->row_idx[row], m->row_count[row]); tmp_cnt = m->row_count[row];`. -/
def cache_row (m : bit_mat_s) (row : Nat) (tmp_idx : List Nat) : Run (List Nat × Nat) := do
  let src ← rd m.row_idx row
  let cnt ← rd m.row_count row
  let tmp_idx ← memcpy tmp_idx src cnt
  pure (tmp_idx, cnt)

/-- The row scan `for (; row < m->dim; ++row)` of `get_image_dimension`; `n` iterations remain.
Returns the matrix, the scratch buffer and the value of `row` on leaving the loop. -/
def scan_rows (fuel pivot : Nat) : Nat → Nat → bit_mat_s → List Nat →
    Run (bit_mat_s × List Nat × Nat)
  | 0, row, m, tmp_idx => .ok (m, tmp_idx, row)
  | n + 1, row, m, tmp_idx => do
    let (tmp_idx, tmp_cnt) ← cache_row m row tmp_idx
    let (tmp_idx, tmp_cnt, min_col) ← sweep_loop m pivot fuel tmp_idx tmp_cnt
    let m ← bit_mat_set_row m row tmp_idx tmp_cnt
    if min_col = pivot then pure (m, tmp_idx, row)
    else scan_rows fuel pivot n (row + 1) m tmp_idx

/-- The pivot loop `for (pivot = 0; pivot < m->dim; ++pivot)`; `n` iterations remain. -/
def pivot_loop (fuel : Nat) : Nat → Nat → bit_mat_s → List Nat → Run bit_mat_s
  | 0, _, m, _ => .ok m
  | n + 1, pivot, m, tmp_idx => do
    let (m, tmp_idx, row) ← scan_rows fuel pivot (m.dim - pivot) pivot m tmp_idx
    if row ≥ m.dim then pivot_loop fuel n (pivot + 1) m tmp_idx
    else do
      let m ← bit_mat_swap_rows m row pivot
      pivot_loop fuel n (pivot + 1) m tmp_idx

/-- The sweep of `get_image_dimension`: everything before the final count. The scratch buffer
is `calloc(m->dim, sizeof(size_t))`. -/
def sweep (fuel : Nat) (m : bit_mat_s) : Run bit_mat_s :=
  pivot_loop fuel m.dim 0 m (List.replicate m.dim 0)

/-- The final counting loop of `get_image_dimension`; `n` iterations remain. -/
def count_loop (m : bit_mat_s) : Nat → Nat → Nat → Run Nat
  | 0, _, im_dim => .ok im_dim
  | n + 1, row, im_dim => do
    let c ← rd m.row_count row
    count_loop m n (row + 1) (if c ≠ 0 then im_dim + 1 else im_dim)

/-- Source: `get_image_dimension`. Each run of its `while` loop may take `fuel` passes. -/
def get_image_dimension (fuel : Nat) (m : bit_mat_s) : Run Nat := do
  let m ← sweep fuel m
  count_loop m m.dim 0 0

/-! ## The grid -/

/-- Source: `get_position`. -/
def get_position (row col cols : Nat) : Nat :=
  size_t_wrap (col + size_t_wrap (row * cols))

/-- The four guarded stores `row_idxs[count++] = get_position(...)` of the loop body of
`generate_matrix`, with `count` starting at 0. Returns the stack array `row_idxs[4]` and `count`.
The array is written at `count <= 3` only. -/
def fill_row_idxs (size action_id : Nat) (row_idxs : List Nat) : List Nat × Nat :=
  let action_row := action_id / size
  let action_col := action_id % size
  let count := 0
  let (row_idxs, count) :=
    if action_row > 0 then
      (row_idxs.set count (get_position (action_row - 1) action_col size), count + 1)
    else (row_idxs, count)
  let (row_idxs, count) :=
    if action_col > 0 then
      (row_idxs.set count (get_position action_row (action_col - 1) size), count + 1)
    else (row_idxs, count)
  let (row_idxs, count) :=
    if size_t_wrap (action_col + 1) < size then
      (row_idxs.set count (get_position action_row (size_t_wrap (action_col + 1)) size), count + 1)
    else (row_idxs, count)
  let (row_idxs, count) :=
    if size_t_wrap (action_row + 1) < size then
      (row_idxs.set count (get_position (size_t_wrap (action_row + 1)) action_col size), count + 1)
    else (row_idxs, count)
  (row_idxs, count)

/-- Body of the loop of `generate_matrix` for one `action_id`: the stores into `row_idxs`, then
`bit_mat_set_row(r, action_id, row_idxs, count)`. -/
def generate_row (size action_id : Nat) (row_idxs : List Nat) (r : bit_mat_s) :
    Run (List Nat × bit_mat_s) :=
  let (row_idxs, count) := fill_row_idxs size action_id row_idxs
  do
    let r ← bit_mat_set_row r action_id row_idxs count
    pure (row_idxs, r)

/-- Loop of `generate_matrix`: `n` iterations remain, the next one is `action_id`. -/
def generate_loop (size : Nat) : Nat → Nat → List Nat → bit_mat_s → Run bit_mat_s
  | 0, _, _, r => .ok r
  | n + 1, action_id, row_idxs, r => do
    let (row_idxs, r) ← generate_row size action_id row_idxs r
    generate_loop size n (action_id + 1) row_idxs r

/-- Source: `generate_matrix`. The stack array `row_idxs[4]` starts indeterminate (shown as
zeros); each iteration writes the cells it hands to `bit_mat_set_row`. -/
def generate_matrix (size : Nat) : Run bit_mat_s :=
  let dim := size_t_wrap (size * size)
  generate_loop size dim 0 (List.replicate 4 0) (bit_mat_create dim)

/-! ## Building a matrix from given rows -/

/-- Loop of `build_matrix`: stores the remaining rows at positions `row, row + 1, ...`. -/
def build_loop : List (List Nat) → Nat → bit_mat_s → Run bit_mat_s
  | [], _, m => .ok m
  | xs :: rest, row, m => do
    let m ← bit_mat_set_row m row xs xs.length
    build_loop rest (row + 1) m

/-- The matrix a caller obtains from `bit_mat_create(rows.length)` followed by one
`bit_mat_set_row` per row, in the way `generate_matrix` fills its matrix. -/
def build_matrix (rows : List (List Nat)) : Run bit_mat_s :=
  build_loop rows 0 (bit_mat_create rows.length)

/-- The rows a matrix holds: at each position the cells in use. -/
def rows_of (m : bit_mat_s) : List (List Nat) :=
  (List.range m.dim).map fun r => (m.row_idx.getD r []).take (m.row_count.getD r 0)

/-! ## Reference notions, following the words of the specification -/

/-- The 0/1 vector of length `dim` that a row (a set of column indices) stands for. -/
def gf2_vec (dim : Nat) (row : List Nat) : List Bool :=
  (List.range dim).map fun c => row.contains c

/-- Sum of two vectors over GF(2). -/
def gf2_add (v w : List Bool) : List Bool := List.zipWith xor v w

/-- All sums over GF(2) of subfamilies of the given vectors, each listed once: the
configurations reachable from the all-off configuration when pressing action `i` adds
vector `i`. -/
def gf2_span (dim : Nat) : List (List Bool) → List (List Bool)
  | [] => [List.replicate dim false]
  | v :: vs => ((gf2_span dim vs) ++ (gf2_span dim vs).map (gf2_add v)).eraseDups

/-- Reference elimination: `n` columns remain, the next one is `col`. A vector with a one
in column `col` becomes a pivot and is added to every other vector with a one there. -/
def gf2_rank_loop : Nat → Nat → List (List Bool) → Nat
  | 0, _, _ => 0
  | n + 1, col, vs =>
    match vs.find? (fun v => v.getD col false) with
    | none => gf2_rank_loop n (col + 1) vs
    | some p =>
      1 + gf2_rank_loop n (col + 1)
        ((vs.erase p).map fun v => if v.getD col false then gf2_add v p else v)

/-- Reference rank over GF(2) of the matrix with the given rows and `dim` columns: the number
of linearly independent rows. -/
def gf2_rank (dim : Nat) (rows : List (List Nat)) : Nat :=
  gf2_rank_loop dim 0 (rows.map (gf2_vec dim))

/-- The orthogonal neighbours of cell `(r, c)` of the `size` by `size` grid, as linear
indices, in the order up, left, right, down. -/
def grid_neighbors (size r c : Nat) : List Nat :=
  (if r > 0 then [(r - 1) * size + c] else []) ++
  (if c > 0 then [r * size + (c - 1)] else []) ++
  (if c + 1 < size then [r * size + (c + 1)] else []) ++
  (if r + 1 < size then [(r + 1) * size + c] else [])

/-- The matrix under construction in `generate_matrix` once the action ids below `k` are
stored: these positions hold the neighbours of their cell, the others are still as
`bit_mat_create` left them. -/
def grid_rows_stored (size k : Nat) (m : bit_mat_s) : Prop :=
  m.dim = size * size ∧ m.row_idx.length = size * size ∧
  m.row_count.length = size * size ∧ m.row_reserved.length = size * size ∧
  (∀ i, i < k →
    m.row_idx[i]? = some (grid_neighbors size (i / size) (i % size)) ∧
    m.row_count[i]? = some (grid_neighbors size (i / size) (i % size)).length) ∧
  (∀ i, k ≤ i → i < size * size → m.row_idx[i]? = some [] ∧ m.row_reserved[i]? = some 0)

/-! ## Example matrices -/

/-- The matrix of the 2 by 2 grid (what `generate_matrix(2)` returns). -/
def grid_two : bit_mat_s :=
  { row_idx := [[1, 2], [0, 3], [0, 3], [1, 2]], row_count := [2, 2, 2, 2],
    row_reserved := [2, 2, 2, 2], dim := 4, alloc_cnt := 8 }

/-- The matrix of the 3 by 3 grid (what `generate_matrix(3)` returns). -/
def grid_three : bit_mat_s :=
  { row_idx := [[1, 3], [0, 2, 4], [1, 5], [0, 4, 6], [1, 3, 5, 7], [2, 4, 8], [3, 7],
      [4, 6, 8], [5, 7]],
    row_count := [2, 3, 2, 3, 4, 3, 2, 3, 2],
    row_reserved := [2, 3, 2, 3, 4, 3, 2, 3, 2], dim := 9, alloc_cnt := 13 }

/-! ## The pivot loop, step by step -/

/-- The pivot loop of `get_image_dimension` (as `pivot_loop`) with the scratch buffer kept in
the result and, as a record on the side, the pivot columns for which a pivot row was found:
the iterations that reach `bit_mat_swap_rows`. Run for `p` iterations from pivot 0 it gives the
state after the pivot columns `0 .. p - 1` are processed. -/
def pivot_steps (fuel : Nat) : Nat → Nat → bit_mat_s → List Nat → List Nat →
    Run (bit_mat_s × List Nat × List Nat)
  | 0, _, m, tmp_idx, found => .ok (m, tmp_idx, found)
  | n + 1, pivot, m, tmp_idx, found => do
    let (m, tmp_idx, row) ← scan_rows fuel pivot (m.dim - pivot) pivot m tmp_idx
    if row ≥ m.dim then pivot_steps fuel n (pivot + 1) m tmp_idx found
    else do
      let m ← bit_mat_swap_rows m row pivot
      pivot_steps fuel n (pivot + 1) m tmp_idx (found ++ [pivot])

/-- Every recorded pivot column `i` lies below `pivot` and below `dim`, and the row stored at
position `i` has minimum `i`. -/
def pivot_rows_ok (pivot : Nat) (m : bit_mat_s) (found : List Nat) : Prop :=
  ∀ i ∈ found, i < pivot ∧ i < m.dim ∧
    ∃ buf cnt, m.row_idx[i]? = some buf ∧ m.row_count[i]? = some cnt ∧
      find_min_elem buf cnt = Run.ok i

/-- The capacity bookkeeping of a matrix is consistent: at every position the recorded
capacity is the number of cells of the buffer stored there, and the count does not exceed
it. -/
def capacity_consistent (m : bit_mat_s) : Bool :=
  (List.range m.dim).all fun r =>
    m.row_reserved.getD r 0 == (m.row_idx.getD r []).length &&
      decide (m.row_count.getD r 0 ≤ m.row_reserved.getD r 0)

/-- The matrix of the 3 by 3 grid in the sweep of `get_image_dimension`, after the pivot columns
0, 1 and 2 are processed. -/
def grid_three_mid : bit_mat_s :=
  { row_idx := [[1, 0], [1, 2, 4], [2, 4, 8], [0, 4, 6], [1, 3, 5, 7], [1, 5], [3, 7],
      [4, 6, 8], [5, 7]],
    row_count := [2, 1, 1, 0, 0, 0, 2, 3, 2],
    row_reserved := [2, 3, 2, 3, 4, 3, 2, 3, 2], dim := 9, alloc_cnt := 13 }

/-- The matrix of the 3 by 3 grid at the end of the sweep of `get_image_dimension`. -/
def grid_three_swept : bit_mat_s :=
  { row_idx := [[1, 0], [1, 2, 4], [2, 4, 8], [3, 7], [4, 6, 8], [5, 7], [0, 4, 6],
      [1, 3, 5, 7], [1, 5]],
    row_count := [2, 1, 1, 1, 1, 1, 0, 0, 0],
    row_reserved := [2, 3, 2, 3, 4, 3, 2, 3, 2], dim := 9, alloc_cnt := 13 }

/-- The matrix of dimension 2 with the rows `{0, 1}` and `{0}` (what `build_matrix` returns for
them). -/
def stuck_input : bit_mat_s :=
  { row_idx := [[0, 1], [0]], row_count := [2, 1], row_reserved := [2, 1], dim := 2,
    alloc_cnt := 6 }

/-- The matrix `stuck_input` in the sweep of `get_image_dimension`, after pivot column 0 is
processed. -/
def stuck_state : bit_mat_s :=
  { row_idx := [[0, 0], [0]], row_count := [2, 1], row_reserved := [2, 1], dim := 2,
    alloc_cnt := 6 }

/-! ## Runs with less and more fuel -/

/-- The run `x` is `y` unless it ran out of fuel. -/
def Run.approx {α : Type} (x y : Run α) : Prop := x = Run.timeout ∨ x = y

/-! ## Runs: basic facts -/

@[simp] theorem Run.ok_bind {α β : Type} (a : α) (f : α → Run β) : (Run.ok a >>= f) = f a := rfl

@[simp] theorem Run.fault_bind {α β : Type} (f : α → Run β) :
    ((Run.fault : Run α) >>= f) = Run.fault := rfl

@[simp] theorem Run.timeout_bind {α β : Type} (f : α → Run β) :
    ((Run.timeout : Run α) >>= f) = Run.timeout := rfl

@[simp] theorem Run.pure_eq_ok {α : Type} (a : α) : (pure a : Run α) = Run.ok a := rfl

theorem Run.bind_eq_ok {α β : Type} {x : Run α} {f : α → Run β} {b : β} :
    (x >>= f) = Run.ok b ↔ ∃ a, x = Run.ok a ∧ f a = Run.ok b := by
  cases x <;> simp

theorem rd_eq_ok {α : Type} {a : List α} {i : Nat} {x : α} :
    rd a i = Run.ok x ↔ a.get? i = some x := by
  unfold rd
  cases h : a.get? i <;> simp

theorem wr_eq_ok {α : Type} {a b : List α} {i : Nat} {x : α} :
    wr a i x = Run.ok b ↔ i < a.length ∧ b = a.set i x := by
  unfold wr
  split <;> simp_all [eq_comm]

/-! ## More fuel never changes a finished run -/

theorem Run.approx_refl {α : Type} (x : Run α) : Run.approx x x := Or.inr rfl

theorem Run.approx_bind {α β : Type} {x y : Run α} {f g : α → Run β}
    (hx : Run.approx x y) (hf : ∀ a, Run.approx (f a) (g a)) :
    Run.approx (x >>= f) (y >>= g) := by
  rcases hx with h | h
  · subst h; exact Or.inl rfl
  · subst h
    cases x with
    | ok a => exact hf a
    | fault => exact Or.inr rfl
    | timeout => exact Or.inl rfl

theorem Run.approx_ok {α : Type} {x y : Run α} {a : α} (h : Run.approx x y)
    (hx : x = Run.ok a) : y = Run.ok a := by
  rcases h with h | h
  · rw [h] at hx; cases hx
  · rw [← h]; exact hx

theorem sweep_loop_approx (m : bit_mat_s) (pivot : Nat) (k : Nat) :
    ∀ (fuel : Nat) (tmp_idx : List Nat) (tmp_cnt : Nat),
      Run.approx (sweep_loop m pivot fuel tmp_idx tmp_cnt)
        (sweep_loop m pivot (fuel + k) tmp_idx tmp_cnt) := by
  intro fuel
  induction fuel with
  | zero => intro _ _; exact Or.inl rfl
  | succ fuel ih =>
    intro tmp_idx tmp_cnt
    rw [Nat.succ_add]
    simp only [sweep_loop]
    refine Run.approx_bind (Run.approx_refl _) ?_
    intro min_col
    split
    · refine Run.approx_bind (Run.approx_refl _) ?_
      intro pivot_idx
      refine Run.approx_bind (Run.approx_refl _) ?_
      intro pivot_cnt
      refine Run.approx_bind (Run.approx_refl _) ?_
      intro p
      exact ih _ _
    · exact Run.approx_refl _

theorem scan_rows_approx (fuel k pivot : Nat) :
    ∀ (n row : Nat) (m : bit_mat_s) (tmp_idx : List Nat),
      Run.approx (scan_rows fuel pivot n row m tmp_idx)
        (scan_rows (fuel + k) pivot n row m tmp_idx) := by
  intro n
  induction n with
  | zero => intro _ _ _; exact Run.approx_refl _
  | succ n ih =>
    intro row m tmp_idx
    simp only [scan_rows]
    refine Run.approx_bind (Run.approx_refl _) ?_
    intro p
    refine Run.approx_bind (sweep_loop_approx _ _ _ _ _ _) ?_
    intro q
    refine Run.approx_bind (Run.approx_refl _) ?_
    intro m2
    split
    · exact Run.approx_refl _
    · exact ih _ _ _

theorem pivot_loop_approx (fuel k : Nat) :
    ∀ (n pivot : Nat) (m : bit_mat_s) (tmp_idx : List Nat),
      Run.approx (pivot_loop fuel n pivot m tmp_idx)
        (pivot_loop (fuel + k) n pivot m tmp_idx) := by
  intro n
  induction n with
  | zero => intro _ _ _; exact Run.approx_refl _
  | succ n ih =>
    intro pivot m tmp_idx
    simp only [pivot_loop]
    refine Run.approx_bind (scan_rows_approx _ _ _ _ _ _ _) ?_
    intro p
    split
    · exact ih _ _ _
    · refine Run.approx_bind (Run.approx_refl _) ?_
      intro m2
      exact ih _ _ _

theorem get_image_dimension_approx (fuel k : Nat) (m : bit_mat_s) :
    Run.approx (get_image_dimension fuel m) (get_image_dimension (fuel + k) m) := by
  simp only [get_image_dimension, sweep]
  exact Run.approx_bind (pivot_loop_approx _ _ _ _ _ _) (fun _ => Run.approx_refl _)

/-- A result obtained with some fuel is obtained with any larger fuel. -/
theorem get_image_dimension_mono {fuel fuel2 : Nat} {m : bit_mat_s} {r : Nat}
    (hle : fuel ≤ fuel2) (h : get_image_dimension fuel m = Run.ok r) :
    get_image_dimension fuel2 m = Run.ok r := by
  obtain ⟨k, rfl⟩ := Nat.exists_eq_add_of_le hle
  exact Run.approx_ok (get_image_dimension_approx fuel k m) h

/-! ## The dimension never changes -/

theorem bit_mat_row_reserve_dim {m m2 : bit_mat_s} {row count : Nat}
    (h : bit_mat_row_reserve m row count = Run.ok m2) : m2.dim = m.dim := by
  unfold bit_mat_row_reserve at h
  obtain ⟨a, -, h⟩ := Run.bind_eq_ok.mp h
  obtain ⟨b, -, h⟩ := Run.bind_eq_ok.mp h
  split at h
  · obtain ⟨c, -, h⟩ := Run.bind_eq_ok.mp h
    obtain ⟨d, -, h⟩ := Run.bind_eq_ok.mp h
    simp at h
    rw [← h]
  · simp at h
    rw [h]

theorem bit_mat_set_row_dim {m m2 : bit_mat_s} {row count : Nat} {xs : List Nat}
    (h : bit_mat_set_row m row xs count = Run.ok m2) : m2.dim = m.dim := by
  unfold bit_mat_set_row at h
  obtain ⟨a, ha, h⟩ := Run.bind_eq_ok.mp h
  obtain ⟨b, -, h⟩ := Run.bind_eq_ok.mp h
  obtain ⟨c, -, h⟩ := Run.bind_eq_ok.mp h
  obtain ⟨d, -, h⟩ := Run.bind_eq_ok.mp h
  obtain ⟨e, -, h⟩ := Run.bind_eq_ok.mp h
  simp at h
  rw [← h]
  exact @bit_mat_row_reserve_dim m a row count ha

theorem bit_mat_swap_rows_dim {m m2 : bit_mat_s} {row1 row2 : Nat}
    (h : bit_mat_swap_rows m row1 row2 = Run.ok m2) : m2.dim = m.dim := by
  unfold bit_mat_swap_rows at h
  obtain ⟨a1, -, h⟩ := Run.bind_eq_ok.mp h
  obtain ⟨a2, -, h⟩ := Run.bind_eq_ok.mp h
  obtain ⟨a3, -, h⟩ := Run.bind_eq_ok.mp h
  obtain ⟨a4, -, h⟩ := Run.bind_eq_ok.mp h
  obtain ⟨a5, -, h⟩ := Run.bind_eq_ok.mp h
  obtain ⟨a6, -, h⟩ := Run.bind_eq_ok.mp h
  obtain ⟨a7, -, h⟩ := Run.bind_eq_ok.mp h
  obtain ⟨a8, -, h⟩ := Run.bind_eq_ok.mp h
  simp at h
  rw [← h]

theorem scan_rows_dim (fuel pivot : Nat) :
    ∀ (n row : Nat) (m : bit_mat_s) (tmp_idx : List Nat) (res : bit_mat_s × List Nat × Nat),
      scan_rows fuel pivot n row m tmp_idx = Run.ok res → res.1.dim = m.dim := by
  intro n
  induction n with
  | zero =>
    intro row m tmp_idx res h
    simp [scan_rows] at h
    rw [← h]
  | succ n ih =>
    intro row m tmp_idx res h
    simp only [scan_rows] at h
    obtain ⟨a, -, h⟩ := Run.bind_eq_ok.mp h
    obtain ⟨b, -, h⟩ := Run.bind_eq_ok.mp h
    obtain ⟨m2, hm2, h⟩ := Run.bind_eq_ok.mp h
    have hd := bit_mat_set_row_dim hm2
    split at h
    · simp at h
      rw [← h]
      exact hd
    · rw [ih _ _ _ _ h, hd]

theorem pivot_loop_dim (fuel : Nat) :
    ∀ (n pivot : Nat) (m : bit_mat_s) (tmp_idx : List Nat) (m2 : bit_mat_s),
      pivot_loop fuel n pivot m tmp_idx = Run.ok m2 → m2.dim = m.dim := by
  intro n
  induction n with
  | zero =>
    intro pivot m tmp_idx m2 h
    simp [pivot_loop] at h
    rw [← h]
  | succ n ih =>
    intro pivot m tmp_idx m2 h
    simp only [pivot_loop] at h
    obtain ⟨a, ha, h⟩ := Run.bind_eq_ok.mp h
    have hd := scan_rows_dim _ _ _ _ _ _ _ ha
    split at h
    · rw [ih _ _ _ _ h, hd]
    · obtain ⟨m3, hm3, h⟩ := Run.bind_eq_ok.mp h
      rw [ih _ _ _ _ h, bit_mat_swap_rows_dim hm3, hd]

theorem sweep_dim {fuel : Nat} {m m2 : bit_mat_s} (h : sweep fuel m = Run.ok m2) :
    m2.dim = m.dim :=
  pivot_loop_dim _ _ _ _ _ _ h

theorem count_loop_spec (m : bit_mat_s) :
    ∀ (n row im_dim r : Nat), count_loop m n row im_dim = Run.ok r →
      r = im_dim + (List.range' row n).countP (fun i => m.row_count.getD i 0 != 0) := by
  intro n
  induction n with
  | zero =>
    intro row im_dim r h
    simp [count_loop] at h
    simp [h]
  | succ n ih =>
    intro row im_dim r h
    simp only [count_loop] at h
    obtain ⟨c, hc, h⟩ := Run.bind_eq_ok.mp h
    have hc2 : m.row_count.getD row 0 = c := by
      rw [rd_eq_ok] at hc
      simp at hc
      simp [List.getD, hc]
    rw [ih _ _ _ h, List.range'_succ, List.countP_cons, hc2]
    by_cases hz : c = 0
    · simp [hz]
    · simp [hz]; omega

/-- C9: whenever `get_image_dimension` returns, the value is at most `m.dim` (and at least 0, being
a natural number): the sweep ended in a matrix of the same dimension, and the value is the number
of positions below `dim` whose `row_count` is nonzero in it. -/
theorem get_image_dimension_le_dim (fuel : Nat) (m : bit_mat_s) (r : Nat)
    (h : get_image_dimension fuel m = Run.ok r) :
    0 ≤ r ∧ r ≤ m.dim ∧
      ∃ m2, sweep fuel m = Run.ok m2 ∧ m2.dim = m.dim ∧
        r = (List.range m.dim).countP (fun row => m2.row_count.getD row 0 != 0) := by
  unfold get_image_dimension at h
  obtain ⟨m2, hm2, h⟩ := Run.bind_eq_ok.mp h
  have hd := sweep_dim hm2
  have hr := count_loop_spec _ _ _ _ _ h
  rw [hd, Nat.zero_add, ← List.range_eq_range'] at hr
  refine ⟨Nat.zero_le _, ?_, m2, hm2, hd, hr⟩
  rw [hr]
  calc (List.range m.dim).countP _ ≤ (List.range m.dim).length := List.countP_le_length _
    _ = m.dim := List.length_range _

/-! ## The small grids and the failing inputs, by evaluation -/

/-- The matrix `generate_matrix(2)` returns. -/
theorem generate_matrix_two :
    generate_matrix 2 = Run.ok grid_two := by
  decide

/-- C1, at a failing input: the matrix of dimension 2 whose two rows both hold the single
index 1 has rank 1 over GF(2) (its rows span 2 = 2^1 vectors), yet `get_image_dimension`
returns 2. No pivot is found for column 0, the row left at position 0 is never reduced by
the pivot found later for column 1, and the final count takes it for an independent row. -/
theorem get_image_dimension_overcounts :
    ∃ m, build_matrix [[1], [1]] = Run.ok m ∧ rows_of m = [[1], [1]] ∧
      (∀ k, get_image_dimension (1 + k) m = Run.ok 2) ∧
      gf2_rank 2 [[1], [1]] = 1 ∧
      (gf2_span 2 ([[1], [1]].map (gf2_vec 2))).length = 2 ^ 1 := by
  refine ⟨{ row_idx := [[1], [1]], row_count := [1, 1], row_reserved := [1, 1], dim := 2,
            alloc_cnt := 6 }, by decide, by decide, ?_, by decide, by decide⟩
  intro k
  exact get_image_dimension_mono (Nat.le_add_right 1 k) (by decide)

/-- C2, at the failing input `size = 2`: the neighbour-flip matrix of the 2 by 2 grid has rank
2 over GF(2) and exactly 4 = 2^2 of the 16 configurations are reachable, yet
`get_image_dimension(generate_matrix(2))` returns 1. -/
theorem grid_two_rank_mismatch :
    ∃ m, generate_matrix 2 = Run.ok m ∧
      (∀ k, get_image_dimension (3 + k) m = Run.ok 1) ∧
      gf2_rank 4 (rows_of m) = 2 ∧
      (gf2_span 4 ((rows_of m).map (gf2_vec 4))).length = 2 ^ 2 := by
  refine ⟨_, generate_matrix_two, ?_, by decide, by decide⟩
  intro k
  exact get_image_dimension_mono (Nat.le_add_right 3 k) (by decide)

/-- C3, as stated, fails: on the matrix of `generate_matrix(2)` no run of
`get_image_dimension` returns 4. -/
theorem grid_two_not_full_rank :
    ∃ m, generate_matrix 2 = Run.ok m ∧ ∀ fuel, get_image_dimension fuel m ≠ Run.ok 4 := by
  refine ⟨_, generate_matrix_two, ?_⟩
  intro fuel h
  have h1 := get_image_dimension_mono (Nat.le_max_left fuel 3) h
  have h2 : get_image_dimension (max fuel 3) grid_two = Run.ok 1 :=
    get_image_dimension_mono (Nat.le_max_right fuel 3) (by decide)
  rw [h1] at h2
  cases h2

/-- C3, amended: `generate_matrix(2)` has `dim = 4`, every row holds exactly 2 indices, and
`get_image_dimension` of that matrix returns a value strictly below 4; the matrix is singular,
rows 0 and 3 hold the same indices and so do rows 1 and 2, and its rank over GF(2) is 2. -/
theorem grid_two_singular :
    ∃ m, generate_matrix 2 = Run.ok m ∧ m.dim = 4 ∧ m.row_count = [2, 2, 2, 2] ∧
      rows_of m = [[1, 2], [0, 3], [0, 3], [1, 2]] ∧
      (∀ k, ∃ r, get_image_dimension (3 + k) m = Run.ok r ∧ r < 4) ∧
      gf2_rank 4 (rows_of m) = 2 := by
  refine ⟨_, generate_matrix_two, rfl, rfl, by decide, ?_, by decide⟩
  intro k
  exact ⟨1, get_image_dimension_mono (Nat.le_add_right 3 k) (by decide), by decide⟩

/-- C4: `generate_matrix(3)` has `dim = 9` and `get_image_dimension` of that matrix returns a
value strictly less than 9 (it returns 6). -/
theorem grid_three_rank_lt :
    ∃ m, generate_matrix 3 = Run.ok m ∧ m.dim = 9 ∧
      ∀ k, ∃ r, get_image_dimension (4 + k) m = Run.ok r ∧ r < 9 := by
  refine ⟨grid_three, by decide, rfl, ?_⟩
  intro k
  exact ⟨6, get_image_dimension_mono (Nat.le_add_right 4 k) (by decide), by decide⟩

/-- C5: `generate_matrix(1)` has `dim = 1`, its single row is empty (`row_count[0] = 0`), and
`get_image_dimension` of that matrix returns 0. -/
theorem grid_one_rank_zero :
    ∃ m, generate_matrix 1 = Run.ok m ∧ m.dim = 1 ∧ m.row_count = [0] ∧ rows_of m = [[]] ∧
      ∀ k, get_image_dimension (1 + k) m = Run.ok 0 := by
  refine ⟨{ row_idx := [[]], row_count := [0], row_reserved := [0], dim := 1, alloc_cnt := 4 },
    by decide, rfl, rfl, by decide, ?_⟩
  intro k
  exact get_image_dimension_mono (Nat.le_add_right 1 k) (by decide)

/-- C8, at a failing input: the rows `{2}`, `{1}`, `{1}` stored in this order give 2, the same
rows stored in the order `{1}`, `{2}`, `{1}` give 3 (the rank over GF(2) is 2 in both
orders). -/
theorem get_image_dimension_depends_on_order :
    ∃ m1 m2, build_matrix [[2], [1], [1]] = Run.ok m1 ∧ build_matrix [[1], [2], [1]] = Run.ok m2 ∧
      rows_of m1 = [[2], [1], [1]] ∧ rows_of m2 = [[1], [2], [1]] ∧
      List.Perm (rows_of m1) (rows_of m2) ∧
      (∀ k, get_image_dimension (2 + k) m1 = Run.ok 2) ∧
      (∀ k, get_image_dimension (2 + k) m2 = Run.ok 3) ∧
      gf2_rank 3 (rows_of m1) = 2 ∧ gf2_rank 3 (rows_of m2) = 2 := by
  refine ⟨{ row_idx := [[2], [1], [1]], row_count := [1, 1, 1], row_reserved := [1, 1, 1],
            dim := 3, alloc_cnt := 7 },
          { row_idx := [[1], [2], [1]], row_count := [1, 1, 1], row_reserved := [1, 1, 1],
            dim := 3, alloc_cnt := 7 }, by decide, by decide, by decide, by decide, ?_, ?_, ?_,
          by decide, by decide⟩
  · exact List.Perm.swap _ _ _
  · intro k
    exact get_image_dimension_mono (Nat.le_add_right 2 k) (by decide)
  · intro k
    exact get_image_dimension_mono (Nat.le_add_right 2 k) (by decide)

/-- Witness for C9 on the matrix of the 2 by 2 grid. -/
theorem get_image_dimension_le_dim_witness :
    get_image_dimension 3 grid_two = Run.ok 1 ∧
      (0 ≤ 1 ∧ 1 ≤ grid_two.dim ∧
        ∃ m2, sweep 3 grid_two = Run.ok m2 ∧ m2.dim = grid_two.dim ∧
          1 = (List.range grid_two.dim).countP (fun row => m2.row_count.getD row 0 != 0)) :=
  ⟨by decide, get_image_dimension_le_dim 3 grid_two 1 (by decide)⟩

/-! ## Rows as index sets -/

theorem mem_take_iff {l : List Nat} {c x : Nat} :
    x ∈ l.take c ↔ ∃ i, i < c ∧ l[i]? = some x := by
  rw [List.mem_iff_getElem?]
  constructor
  · rintro ⟨i, hi⟩
    rw [List.getElem?_take] at hi
    by_cases h : i < c
    · exact ⟨i, h, by simpa [h] using hi⟩
    · simp [h] at hi
  · rintro ⟨i, h, hi⟩
    exact ⟨i, by rw [List.getElem?_take]; simpa [h] using hi⟩

theorem nodup_take_iff {l : List Nat} {c : Nat} (hc : c ≤ l.length) :
    (l.take c).Nodup ↔ ∀ i j, i < j → j < c → l[i]? ≠ l[j]? := by
  rw [List.nodup_iff_getElem?_ne_getElem?]
  have hlen : (l.take c).length = c := by simp [hc]
  constructor
  · intro h i j hij hj
    have := h i j hij (by omega)
    rw [List.getElem?_take, List.getElem?_take] at this
    simpa [hj, Nat.lt_trans hij hj] using this
  · intro h i j hij hj
    rw [hlen] at hj
    rw [List.getElem?_take, List.getElem?_take]
    simpa [hj, Nat.lt_trans hij hj] using h i j hij hj

/-- What `find_elem_loop` returns on cells inside the array: the first position holding `col`,
or `SIZE_MAX` when no inspected cell holds it. -/
theorem find_elem_loop_spec (row_idx : List Nat) (col : Nat) :
    ∀ (n pos : Nat), pos + n ≤ row_idx.length →
      (∃ p, find_elem_loop row_idx col n pos = Run.ok p ∧ pos ≤ p ∧ p < pos + n ∧
          row_idx[p]? = some col ∧ ∀ q, pos ≤ q → q < p → row_idx[q]? ≠ some col) ∨
      (find_elem_loop row_idx col n pos = Run.ok SIZE_MAX ∧
          ∀ q, pos ≤ q → q < pos + n → row_idx[q]? ≠ some col) := by
  intro n
  induction n with
  | zero =>
    intro pos _
    right
    exact ⟨rfl, fun q h1 h2 => by omega⟩
  | succ n ih =>
    intro pos hlen
    have hpos : pos < row_idx.length := by omega
    have hrd : rd row_idx pos = Run.ok row_idx[pos] := by
      rw [rd_eq_ok, List.get?_eq_getElem?, List.getElem?_eq_getElem hpos]
    simp only [find_elem_loop, hrd, Run.ok_bind]
    by_cases hx : row_idx[pos] = col
    · left
      refine ⟨pos, by simp [hx], le_refl _, by omega, ?_, fun q h1 h2 => by omega⟩
      rw [List.getElem?_eq_getElem hpos, hx]
    · simp only [hx, if_false]
      rcases ih (pos + 1) (by omega) with ⟨p, h1, h2, h3, h4, h5⟩ | ⟨h1, h2⟩
      · left
        refine ⟨p, h1, by omega, by omega, h4, ?_⟩
        intro q hq1 hq2
        by_cases hq : q = pos
        · subst hq
          rw [List.getElem?_eq_getElem hpos]
          simpa using hx
        · exact h5 q (by omega) hq2
      · right
        refine ⟨h1, ?_⟩
        intro q hq1 hq2
        by_cases hq : q = pos
        · subst hq
          rw [List.getElem?_eq_getElem hpos]
          simpa using hx
        · exact h2 q (by omega) (by omega)

/-- C10: on a duplicate-free row with room for one more cell, `flip_elem_unsafe` toggles the
membership of `col` and nothing else. If `col` was among the first `row_count` cells, the
result has `row_count - 1` cells in use and `col` is no longer among them; otherwise it has
`row_count + 1` cells in use and `col` is among them. Every other index is a member afterwards
iff it was a member before, and the cells in use are again free of duplicates. -/
theorem flip_elem_unsafe_toggles (row_idx : List Nat) (row_count col : Nat)
    (hcap : row_count < row_idx.length) (hsize : row_idx.length ≤ SIZE_MAX)
    (hnd : (row_idx.take row_count).Nodup) :
    ∃ row_idx2 row_count2,
      flip_elem_unsafe row_idx row_count col = Run.ok (row_idx2, row_count2) ∧
      (col ∈ row_idx.take row_count →
        row_count2 = row_count - 1 ∧ col ∉ row_idx2.take row_count2) ∧
      (col ∉ row_idx.take row_count →
        row_count2 = row_count + 1 ∧ col ∈ row_idx2.take row_count2) ∧
      (∀ x, x ≠ col → (x ∈ row_idx2.take row_count2 ↔ x ∈ row_idx.take row_count)) ∧
      (row_idx2.take row_count2).Nodup := by
  have hnd2 := (nodup_take_iff (Nat.le_of_lt hcap)).mp hnd
  have hmax : SIZE_MAX = 2 ^ 64 - 1 := rfl
  rcases find_elem_loop_spec row_idx col row_count 0 (by omega) with
    ⟨p, h1, -, h3, h4, -⟩ | ⟨h1, h2⟩
  · -- `col` is found at position `p`: the last cell in use is moved there
    have hp : p ≠ SIZE_MAX := by omega
    have hlast : row_count - 1 < row_idx.length := by omega
    have hrd : rd row_idx (row_count - 1) = Run.ok row_idx[row_count - 1] := by
      rw [rd_eq_ok, List.get?_eq_getElem?, List.getElem?_eq_getElem hlast]
    have hwr : wr row_idx p row_idx[row_count - 1] =
        Run.ok (row_idx.set p row_idx[row_count - 1]) := by
      rw [wr_eq_ok]; exact ⟨by omega, rfl⟩
    have hlast2 : row_idx[row_count - 1]? = some row_idx[row_count - 1] :=
      List.getElem?_eq_getElem hlast
    have huniq : ∀ q, q < row_count → row_idx[q]? = some col → q = p := by
      intro q hq hqc
      by_contra hne
      rcases Nat.lt_or_gt_of_ne hne with hlt | hgt
      · exact hnd2 q p hlt (by omega) (by rw [hqc, h4])
      · exact hnd2 p q hgt hq (by rw [hqc, h4])
    have hmem : col ∈ row_idx.take row_count := mem_take_iff.mpr ⟨p, by omega, h4⟩
    have hget : ∀ i, (row_idx.set p row_idx[row_count - 1])[i]? =
        if p = i then some row_idx[row_count - 1] else row_idx[i]? := by
      intro i
      rw [List.getElem?_set]
      have : p < row_idx.length := by omega
      simp [this]
    refine ⟨row_idx.set p row_idx[row_count - 1], row_count - 1, ?_, ?_, ?_, ?_, ?_⟩
    · simp [find_elem, flip_elem_unsafe, h1, hp, hrd, hwr]
    · intro _
      refine ⟨rfl, ?_⟩
      rw [mem_take_iff]
      rintro ⟨i, hi, hic⟩
      rw [hget] at hic
      by_cases hpi : p = i
      · subst hpi
        simp only [if_true] at hic
        have := huniq (row_count - 1) (by omega) (by rw [hlast2, hic])
        omega
      · simp only [hpi, if_false] at hic
        have := huniq i (by omega) hic
        omega
    · intro hn
      exact absurd hmem hn
    · intro x hx
      rw [mem_take_iff, mem_take_iff]
      constructor
      · rintro ⟨i, hi, hix⟩
        rw [hget] at hix
        by_cases hpi : p = i
        · subst hpi
          simp only [if_true] at hix
          exact ⟨row_count - 1, by omega, by rw [hlast2, hix]⟩
        · simp only [hpi, if_false] at hix
          exact ⟨i, by omega, hix⟩
      · rintro ⟨i, hi, hix⟩
        have hip : i ≠ p := by
          intro h
          subst h
          rw [h4] at hix
          exact hx (Option.some.inj hix).symm
        by_cases hil : i = row_count - 1
        · subst hil
          refine ⟨p, by omega, ?_⟩
          rw [hget]
          simp only [if_true]
          rw [← hlast2, hix]
        · refine ⟨i, by omega, ?_⟩
          rw [hget]
          simp only [Ne.symm hip, if_false]
          exact hix
    · have hlen : row_count - 1 ≤ (row_idx.set p row_idx[row_count - 1]).length := by
        simp; omega
      rw [nodup_take_iff hlen]
      intro i j hij hj
      rw [hget, hget]
      by_cases hpi : p = i
      · subst hpi
        have hpj : p ≠ j := by omega
        simp only [if_true, hpj, if_false]
        rw [← hlast2]
        exact fun h => hnd2 j (row_count - 1) (by omega) (by omega) h.symm
      · by_cases hpj : p = j
        · subst hpj
          simp only [hpi, if_false, if_true]
          rw [← hlast2]
          exact hnd2 i (row_count - 1) (by omega) (by omega)
        · simp only [hpi, hpj, if_false]
          exact hnd2 i j hij (by omega)
  · -- `col` is absent: it is stored in the first free cell
    have hwr : wr row_idx row_count col = Run.ok (row_idx.set row_count col) := by
      rw [wr_eq_ok]; exact ⟨hcap, rfl⟩
    have hwrap : size_t_wrap (row_count + 1) = row_count + 1 := by
      unfold size_t_wrap
      exact Nat.mod_eq_of_lt (by omega)
    have hnmem : col ∉ row_idx.take row_count := by
      rw [mem_take_iff]
      rintro ⟨i, hi, hic⟩
      exact h2 i (Nat.zero_le _) (by omega) hic
    have hget : ∀ i, (row_idx.set row_count col)[i]? =
        if row_count = i then some col else row_idx[i]? := by
      intro i
      rw [List.getElem?_set]
      simp [hcap]
    refine ⟨row_idx.set row_count col, row_count + 1, ?_, ?_, ?_, ?_, ?_⟩
    · simp [find_elem, flip_elem_unsafe, h1, hwr, hwrap]
    · intro hm
      exact absurd hm hnmem
    · intro _
      refine ⟨rfl, ?_⟩
      rw [mem_take_iff]
      exact ⟨row_count, by omega, by rw [hget]; simp⟩
    · intro x hx
      rw [mem_take_iff, mem_take_iff]
      constructor
      · rintro ⟨i, hi, hix⟩
        rw [hget] at hix
        by_cases hci : row_count = i
        · subst hci
          simp only [if_true] at hix
          exact absurd (Option.some.inj hix).symm hx
        · simp only [hci, if_false] at hix
          exact ⟨i, by omega, hix⟩
      · rintro ⟨i, hi, hix⟩
        refine ⟨i, by omega, ?_⟩
        rw [hget]
        have : row_count ≠ i := by omega
        simp only [this, if_false]
        exact hix
    · have hlen : row_count + 1 ≤ (row_idx.set row_count col).length := by
        simp; omega
      rw [nodup_take_iff hlen]
      intro i j hij hj
      rw [hget, hget]
      have hci : row_count ≠ i := by omega
      simp only [hci, if_false]
      by_cases hcj : row_count = j
      · subst hcj
        simp only [if_true]
        exact h2 i (Nat.zero_le _) (by omega)
      · simp only [hcj, if_false]
        exact hnd2 i j hij (by omega)

/-- Witness for C10: flipping 7 in the row `{5, 7, 9}` held in four cells. -/
theorem flip_elem_unsafe_toggles_witness :
    (3 < [5, 7, 9, 0].length ∧ [5, 7, 9, 0].length ≤ SIZE_MAX ∧ ([5, 7, 9, 0].take 3).Nodup) ∧
    ∃ row_idx2 row_count2,
      flip_elem_unsafe [5, 7, 9, 0] 3 7 = Run.ok (row_idx2, row_count2) ∧
      (7 ∈ [5, 7, 9, 0].take 3 → row_count2 = 3 - 1 ∧ 7 ∉ row_idx2.take row_count2) ∧
      (7 ∉ [5, 7, 9, 0].take 3 → row_count2 = 3 + 1 ∧ 7 ∈ row_idx2.take row_count2) ∧
      (∀ x, x ≠ 7 → (x ∈ row_idx2.take row_count2 ↔ x ∈ [5, 7, 9, 0].take 3)) ∧
      (row_idx2.take row_count2).Nodup :=
  ⟨by decide, flip_elem_unsafe_toggles [5, 7, 9, 0] 3 7 (by decide) (by decide) (by decide)⟩

/-! ## Storing a row -/

theorem memcpy_cells {dst src : List Nat} {count : Nat} (hd : count ≤ dst.length)
    (hs : count ≤ src.length) :
    memcpy dst src (count * SIZEOF_SIZE_T) = Run.ok (src.take count ++ dst.drop count) := by
  simp [memcpy, SIZEOF_SIZE_T, hd, hs]

theorem realloc_length (buf : List Nat) (count : Nat) : (realloc buf count).length = count := by
  simp [realloc]

/-- Effect of `bit_mat_set_row` on a position that exists, when the source array holds `count`
cells and the buffer at the position, if it is not grown, has room for them. -/
theorem bit_mat_set_row_ok {m : bit_mat_s} {row count res : Nat} {src buf : List Nat}
    (hb : m.row_idx[row]? = some buf) (hr : m.row_reserved[row]? = some res)
    (hc : row < m.row_count.length) (hsrc : count ≤ src.length)
    (hfit : res < count ∨ count ≤ buf.length) :
    bit_mat_set_row m row src count = Run.ok
      { row_idx := m.row_idx.set row
          (src.take count ++ (if res < count then realloc buf count else buf).drop count),
        row_count := m.row_count.set row count,
        row_reserved := if res < count then m.row_reserved.set row count else m.row_reserved,
        dim := m.dim,
        alloc_cnt := if res < count then size_t_wrap (m.alloc_cnt + 1) else m.alloc_cnt } := by
  have hrow : row < m.row_idx.length := by
    rcases List.getElem?_eq_some.mp hb with ⟨h, -⟩; exact h
  have hrow2 : row < m.row_reserved.length := by
    rcases List.getElem?_eq_some.mp hr with ⟨h, -⟩; exact h
  have hrd1 : rd m.row_idx row = Run.ok buf := by
    rw [rd_eq_ok, List.get?_eq_getElem?]; exact hb
  have hrd2 : rd m.row_reserved row = Run.ok res := by
    rw [rd_eq_ok, List.get?_eq_getElem?]; exact hr
  by_cases hlt : res < count
  · have hres : bit_mat_row_reserve m row count = Run.ok
        { m with row_idx := m.row_idx.set row (realloc buf count),
                 alloc_cnt := size_t_wrap (m.alloc_cnt + 1),
                 row_reserved := m.row_reserved.set row count } := by
      simp [bit_mat_row_reserve, hrd1, hrd2, hlt, wr, hrow, hrow2]
    have hrd3 : rd (m.row_idx.set row (realloc buf count)) row = Run.ok (realloc buf count) := by
      rw [rd_eq_ok, List.get?_eq_getElem?, List.getElem?_set]; simp [hrow]
    have hcp := @memcpy_cells (realloc buf count) src count (by rw [realloc_length]) hsrc
    simp [bit_mat_set_row, hres, hrd3, hcp, wr, hrow, hc, hlt]
  · have hle : count ≤ buf.length := by
      rcases hfit with h | h
      · exact absurd h hlt
      · exact h
    have hres : bit_mat_row_reserve m row count = Run.ok m := by
      simp [bit_mat_row_reserve, hrd1, hrd2, hlt]
    have hcp := @memcpy_cells buf src count hle hsrc
    simp [bit_mat_set_row, hres, hrd1, hcp, wr, hrow, hc, hlt]

/-- The same effect, field by field. -/
theorem bit_mat_set_row_fields {m : bit_mat_s} {row count res : Nat} {src buf : List Nat}
    (hb : m.row_idx[row]? = some buf) (hr : m.row_reserved[row]? = some res)
    (hc : row < m.row_count.length) (hsrc : count ≤ src.length)
    (hfit : res < count ∨ count ≤ buf.length) :
    ∃ m2, bit_mat_set_row m row src count = Run.ok m2 ∧
      m2.row_idx = m.row_idx.set row
        (src.take count ++ (if res < count then realloc buf count else buf).drop count) ∧
      m2.row_count = m.row_count.set row count ∧
      m2.row_reserved = (if res < count then m.row_reserved.set row count else m.row_reserved) ∧
      m2.dim = m.dim :=
  ⟨_, bit_mat_set_row_ok hb hr hc hsrc hfit, rfl, rfl, rfl, rfl⟩
/-! ## The grid -/

theorem size_t_wrap_of_le {x : Nat} (h : x ≤ SIZE_MAX) : size_t_wrap x = x := by
  unfold size_t_wrap
  unfold SIZE_MAX at h
  exact Nat.mod_eq_of_lt (by omega)

theorem get_position_eq {row col cols : Nat} (h : row * cols + col ≤ SIZE_MAX) :
    get_position row col cols = row * cols + col := by
  unfold get_position
  rw [size_t_wrap_of_le (x := row * cols) (by omega), Nat.add_comm, size_t_wrap_of_le h]

theorem cell_lt {size r c : Nat} (hr : r < size) (hc : c < size) :
    r * size + c < size * size := by
  calc r * size + c < r * size + size := by omega
    _ = (r + 1) * size := by ring
    _ ≤ size * size := Nat.mul_le_mul_right size hr

theorem cell_div {size r c : Nat} (hc : c < size) : (r * size + c) / size = r := by
  have hpos : 0 < size := by omega
  rw [Nat.add_comm, Nat.add_mul_div_right _ _ hpos, Nat.div_eq_of_lt hc, Nat.zero_add]

theorem cell_mod {size r c : Nat} (hc : c < size) : (r * size + c) % size = c := by
  rw [Nat.add_comm, Nat.add_mul_mod_self_right, Nat.mod_eq_of_lt hc]

/-- The stores of one iteration of the loop of `generate_matrix`, for a cell of a grid whose
`size * size` fits `size_t`: the first `count` cells of `row_idxs` are the neighbours of the
cell. -/
theorem fill_row_idxs_eq (size r c x0 x1 x2 x3 : Nat)
    (hrep : size * size ≤ SIZE_MAX) (hr : r < size) (hc : c < size) :
    (fill_row_idxs size (r * size + c) [x0, x1, x2, x3]).1.length = 4 ∧
      (fill_row_idxs size (r * size + c) [x0, x1, x2, x3]).2 =
        (grid_neighbors size r c).length ∧
      (fill_row_idxs size (r * size + c) [x0, x1, x2, x3]).1.take
        (grid_neighbors size r c).length = grid_neighbors size r c ∧
      (grid_neighbors size r c).length ≤ 4 := by
  have hlt := cell_lt hr hc
  have hsz : size ≤ size * size := Nat.le_mul_of_pos_left size (by omega)
  have hup : r > 0 → get_position (r - 1) c size = (r - 1) * size + c := by
    intro h
    have : (r - 1) * size + c < size * size := cell_lt (by omega) hc
    exact get_position_eq (by omega)
  have hleft : get_position r (c - 1) size = r * size + (c - 1) :=
    get_position_eq (by omega)
  have hright : get_position r (c + 1) size = r * size + (c + 1) :=
    get_position_eq (by omega)
  have hdown : r + 1 < size → get_position (r + 1) c size = (r + 1) * size + c := by
    intro h
    have : (r + 1) * size + c < size * size := cell_lt h hc
    exact get_position_eq (by omega)
  have hw1 : size_t_wrap (c + 1) = c + 1 := size_t_wrap_of_le (by omega)
  have hw2 : size_t_wrap (r + 1) = r + 1 := size_t_wrap_of_le (by omega)
  unfold fill_row_idxs grid_neighbors
  simp only [cell_div hc, cell_mod hc, hw1, hw2, hleft, hright]
  by_cases h1 : r > 0 <;> by_cases h2 : c > 0 <;> by_cases h3 : c + 1 < size <;>
    by_cases h4 : r + 1 < size <;>
    simp [h1, h2, h3, h4, hup, hdown]
theorem grid_neighbors_props {size r c : Nat} (hr : r < size) (hc : c < size) :
    (grid_neighbors size r c).Nodup ∧ (∀ x ∈ grid_neighbors size r c, x < size * size) ∧
      r * size + c ∉ grid_neighbors size r c := by
  have hq : r * size + size ≤ size * size := by
    have := Nat.mul_le_mul_right size (Nat.succ_le_of_lt hr)
    rw [Nat.succ_mul] at this
    exact this
  have hq2 : r + 1 < size → r * size + size + size ≤ size * size := by
    intro h
    have := Nat.mul_le_mul_right size (Nat.succ_le_of_lt h)
    rw [Nat.succ_mul, Nat.succ_mul] at this
    exact this
  have hp : r > 0 → size ≤ r * size := fun h => Nat.le_mul_of_pos_left size h
  have e1 : (r - 1) * size = r * size - size := by rw [Nat.sub_mul, Nat.one_mul]
  have e2 : (r + 1) * size = r * size + size := by rw [Nat.add_mul, Nat.one_mul]
  unfold grid_neighbors
  rw [e1, e2]
  by_cases h1 : r > 0 <;> by_cases h2 : c > 0 <;> by_cases h3 : c + 1 < size <;>
    by_cases h4 : r + 1 < size <;>
    simp [h1, h2, h3, h4] <;>
    (have h5 := hp; have h6 := hq2; omega)

/-- One iteration of the loop of `generate_matrix` stores the neighbours of cell `a`. -/
theorem generate_row_step {size a : Nat} {row_idxs : List Nat} {m : bit_mat_s}
    (hrep : size * size ≤ SIZE_MAX) (ha : a < size * size) (hlen : row_idxs.length = 4)
    (hinv : grid_rows_stored size a m) :
    ∃ l m2, generate_row size a row_idxs m = Run.ok (l, m2) ∧ l.length = 4 ∧
      grid_rows_stored size (a + 1) m2 := by
  have hpos : 0 < size := by
    rcases Nat.eq_zero_or_pos size with h | h
    · subst h; simp at ha
    · exact h
  have hr : a / size < size := Nat.div_lt_of_lt_mul ha
  have hc : a % size < size := Nat.mod_lt _ hpos
  have hadec : a / size * size + a % size = a := by
    rw [Nat.mul_comm]; exact Nat.div_add_mod a size
  obtain ⟨hd, hl1, hl2, hl3, hdone, htodo⟩ := hinv
  obtain ⟨x0, x1, x2, x3, rfl⟩ : ∃ x0 x1 x2 x3, row_idxs = [x0, x1, x2, x3] := by
    match row_idxs, hlen with
    | [x0, x1, x2, x3], _ => exact ⟨x0, x1, x2, x3, rfl⟩
  obtain ⟨f1, f2, f3, f4⟩ := fill_row_idxs_eq size (a / size) (a % size) x0 x1 x2 x3 hrep hr hc
  rw [hadec] at f1 f2 f3
  obtain ⟨hb, hres⟩ := htodo a (le_refl _) ha
  obtain ⟨m2, hset, e1, e2, e3, e4⟩ := @bit_mat_set_row_fields m a
    (fill_row_idxs size a [x0, x1, x2, x3]).2 0
    (fill_row_idxs size a [x0, x1, x2, x3]).1 [] hb hres (by omega) (by omega) (by omega)
  have hbuf : List.take (fill_row_idxs size a [x0, x1, x2, x3]).2
        (fill_row_idxs size a [x0, x1, x2, x3]).1 ++
      List.drop (fill_row_idxs size a [x0, x1, x2, x3]).2
        (if 0 < (fill_row_idxs size a [x0, x1, x2, x3]).2 then
          realloc [] (fill_row_idxs size a [x0, x1, x2, x3]).2 else []) =
      grid_neighbors size (a / size) (a % size) := by
    rw [f2, f3]
    have : List.drop (grid_neighbors size (a / size) (a % size)).length
        (if 0 < (grid_neighbors size (a / size) (a % size)).length then
          realloc [] (grid_neighbors size (a / size) (a % size)).length else []) = [] := by
      apply List.drop_of_length_le
      split
      · rw [realloc_length]
      · simp
    rw [this, List.append_nil]
  rw [hbuf] at e1
  rw [f2] at e2
  refine ⟨(fill_row_idxs size a [x0, x1, x2, x3]).1, m2, ?_, f1, ?_⟩
  · unfold generate_row
    simp only [hset, Run.ok_bind, Run.pure_eq_ok]
  · refine ⟨by rw [e4, hd], by rw [e1]; simp [hl1], by rw [e2]; simp [hl2], ?_, ?_, ?_⟩
    · rw [e3]; split <;> simp [hl3]
    · intro i hi
      by_cases hia : i = a
      · subst hia
        constructor
        · rw [e1, List.getElem?_set]; simp [hl1, ha]
        · rw [e2, List.getElem?_set]; simp [hl2, ha]
      · obtain ⟨g1, g2⟩ := hdone i (by omega)
        constructor
        · rw [e1, List.getElem?_set_ne (Ne.symm hia)]; exact g1
        · rw [e2, List.getElem?_set_ne (Ne.symm hia)]; exact g2
    · intro i hi1 hi2
      have hia : a ≠ i := by omega
      obtain ⟨g1, g2⟩ := htodo i (by omega) hi2
      constructor
      · rw [e1, List.getElem?_set_ne hia]; exact g1
      · rw [e3]
        split
        · rw [List.getElem?_set_ne hia]; exact g2
        · exact g2

theorem generate_loop_spec {size : Nat} (hrep : size * size ≤ SIZE_MAX) :
    ∀ (n a : Nat) (row_idxs : List Nat) (m : bit_mat_s), a + n = size * size →
      row_idxs.length = 4 → grid_rows_stored size a m →
      ∃ m2, generate_loop size n a row_idxs m = Run.ok m2 ∧
        grid_rows_stored size (size * size) m2 := by
  intro n
  induction n with
  | zero =>
    intro a row_idxs m ha _ hinv
    rw [Nat.add_zero] at ha
    subst ha
    exact ⟨m, rfl, hinv⟩
  | succ n ih =>
    intro a row_idxs m ha hlen hinv
    obtain ⟨l, m2, h1, h2, h3⟩ := generate_row_step hrep (by omega) hlen hinv
    obtain ⟨m3, h4, h5⟩ := ih (a + 1) l m2 (by omega) h2 h3
    refine ⟨m3, ?_, h5⟩
    simp only [generate_loop, h1, Run.ok_bind]
    exact h4

theorem bit_mat_create_stored (size : Nat) :
    grid_rows_stored size 0 (bit_mat_create (size * size)) := by
  refine ⟨rfl, by simp [bit_mat_create], by simp [bit_mat_create], by simp [bit_mat_create],
    fun i hi => by omega, ?_⟩
  intro i _ hi
  simp [bit_mat_create, List.getElem?_replicate, hi]

/-- For a grid whose `size * size` fits `size_t`, `generate_matrix(size)` returns, and every
position of the matrix holds the neighbours of its cell. -/
theorem generate_matrix_stored {size : Nat} (hrep : size * size ≤ SIZE_MAX) :
    ∃ m, generate_matrix size = Run.ok m ∧ grid_rows_stored size (size * size) m := by
  have hdim : size_t_wrap (size * size) = size * size := size_t_wrap_of_le hrep
  obtain ⟨m, hm, hinv⟩ := generate_loop_spec hrep (size * size) 0 (List.replicate 4 0)
    (bit_mat_create (size * size)) (by omega) (by simp) (bit_mat_create_stored size)
  refine ⟨m, ?_, hinv⟩
  unfold generate_matrix
  simp only [hdim]
  exact hm

/-- C7, amended: for a grid whose `size * size` fits `size_t`, `generate_matrix(size)`
returns a matrix with `dim = size * size`, and for every cell `(r, c)` with `r, c < size` the
row at position `r * size + c` holds, without duplicates, exactly the linear indices of the
existing orthogonal neighbours of the cell (up, left, right, down); every stored index is
below `dim` and the own index `r * size + c` is not stored. (For `size = 0` there is no
cell.) -/
theorem generate_matrix_rows (size : Nat) (hrep : size * size ≤ SIZE_MAX) :
    ∃ m, generate_matrix size = Run.ok m ∧ m.dim = size * size ∧
      ∀ r c, r < size → c < size →
        ∃ buf cnt, m.row_idx[r * size + c]? = some buf ∧
          m.row_count[r * size + c]? = some cnt ∧
          buf.take cnt = grid_neighbors size r c ∧ (buf.take cnt).Nodup ∧
          (∀ x ∈ buf.take cnt, x < m.dim) ∧ r * size + c ∉ buf.take cnt := by
  obtain ⟨m, hm, hinv⟩ := generate_matrix_stored hrep
  refine ⟨m, hm, hinv.1, ?_⟩
  · intro r c hr hc
    obtain ⟨g1, g2⟩ := hinv.2.2.2.2.1 (r * size + c) (cell_lt hr hc)
    rw [cell_div hc, cell_mod hc] at g1 g2
    obtain ⟨p1, p2, p3⟩ := grid_neighbors_props hr hc
    refine ⟨_, _, g1, g2, ?_, ?_, ?_, ?_⟩
    · exact List.take_length _
    · rw [List.take_length]; exact p1
    · rw [List.take_length, hinv.1]; exact p2
    · rw [List.take_length]; exact p3

/-- Witness for C7 (amended) at `size = 3`. -/
theorem generate_matrix_rows_witness :
    3 * 3 ≤ SIZE_MAX ∧
    ∃ m, generate_matrix 3 = Run.ok m ∧ m.dim = 3 * 3 ∧
      ∀ r c, r < 3 → c < 3 →
        ∃ buf cnt, m.row_idx[r * 3 + c]? = some buf ∧
          m.row_count[r * 3 + c]? = some cnt ∧
          buf.take cnt = grid_neighbors 3 r c ∧ (buf.take cnt).Nodup ∧
          (∀ x ∈ buf.take cnt, x < m.dim) ∧ r * 3 + c ∉ buf.take cnt :=
  ⟨by decide, generate_matrix_rows 3 (by decide)⟩

/-- C7, as stated, fails when `size * size` wraps: for `size = 2^64 - 3` the program computes
`dim = 9`, and the row of cell `(0, 0)` holds the indices 1 and `2^64 - 3`, the second of which
is not below `dim`. -/
theorem generate_matrix_wrap_out_of_range :
    ∃ m, generate_matrix 18446744073709551613 = Run.ok m ∧ m.dim = 9 ∧
      m.row_idx[0 * 18446744073709551613 + 0]? = some [1, 18446744073709551613] ∧
      m.row_count[0 * 18446744073709551613 + 0]? = some 2 ∧
      ¬ (18446744073709551613 < m.dim) := by
  refine ⟨{ row_idx := [[1, 18446744073709551613], [0, 2, 18446744073709551614],
              [1, 3, 18446744073709551615], [2, 4, 0], [3, 5, 1], [4, 6, 2], [5, 7, 3],
              [6, 8, 4], [7, 9, 5]],
            row_count := [2, 3, 3, 3, 3, 3, 3, 3, 3],
            row_reserved := [2, 3, 3, 3, 3, 3, 3, 3, 3], dim := 9, alloc_cnt := 13 },
    by decide, rfl, rfl, rfl, by decide⟩
/-! ## Symmetry of the grid matrix -/

theorem cell_inj {size r c r2 c2 : Nat} (hc : c < size) (hc2 : c2 < size) :
    r * size + c = r2 * size + c2 ↔ r = r2 ∧ c = c2 := by
  constructor
  · intro h
    have hd := congrArg (fun x => x / size) h
    have hm := congrArg (fun x => x % size) h
    simp only [cell_div hc, cell_div hc2, cell_mod hc, cell_mod hc2] at hd hm
    exact ⟨hd, hm⟩
  · rintro ⟨rfl, rfl⟩
    rfl

theorem mem_grid_neighbors {size r c r2 c2 : Nat} (hc : c < size) (hc2 : c2 < size) :
    r2 * size + c2 ∈ grid_neighbors size r c ↔
      (r2 + 1 = r ∧ c2 = c) ∨ (r2 = r ∧ c2 + 1 = c) ∨ (c + 1 < size ∧ r2 = r ∧ c2 = c + 1) ∨
        (r + 1 < size ∧ r2 = r + 1 ∧ c2 = c) := by
  have u1 : r2 * size + c2 = (r - 1) * size + c ↔ r2 = r - 1 ∧ c2 = c := cell_inj hc2 hc
  have u2 : r2 * size + c2 = r * size + (c - 1) ↔ r2 = r ∧ c2 = c - 1 :=
    cell_inj hc2 (by omega)
  have u3 : c + 1 < size → (r2 * size + c2 = r * size + (c + 1) ↔ r2 = r ∧ c2 = c + 1) :=
    fun h => cell_inj hc2 h
  have u4 : r2 * size + c2 = (r + 1) * size + c ↔ r2 = r + 1 ∧ c2 = c := cell_inj hc2 hc
  unfold grid_neighbors
  by_cases h1 : r > 0 <;> by_cases h2 : c > 0 <;> by_cases h3 : c + 1 < size <;>
    by_cases h4 : r + 1 < size <;>
    simp [h1, h2, h3, h4, u1, u2, u3, u4] <;>
    omega

theorem grid_neighbors_symm {size r c r2 c2 : Nat} (hr : r < size) (hc : c < size)
    (hr2 : r2 < size) (hc2 : c2 < size) :
    r2 * size + c2 ∈ grid_neighbors size r c ↔ r * size + c ∈ grid_neighbors size r2 c2 := by
  rw [mem_grid_neighbors hc hc2, mem_grid_neighbors hc2 hc]
  constructor <;> intro h <;> omega

/-- On cells inside the array whose length fits `size_t`, `find_elem` returns a position other
than `SIZE_MAX` exactly when `col` is among the first `row_count` cells. -/
theorem find_elem_mem {row_idx : List Nat} {row_count : Nat} (col : Nat)
    (hc : row_count ≤ row_idx.length) (hs : row_idx.length ≤ SIZE_MAX) :
    ∃ pos, find_elem row_idx row_count col = Run.ok pos ∧
      (pos ≠ SIZE_MAX ↔ col ∈ row_idx.take row_count) := by
  rcases find_elem_loop_spec row_idx col row_count 0 (by omega) with
    ⟨p, h1, -, h3, h4, -⟩ | ⟨h1, h2⟩
  · refine ⟨p, h1, ?_⟩
    have hp : p ≠ SIZE_MAX := by omega
    have hm : col ∈ row_idx.take row_count := mem_take_iff.mpr ⟨p, by omega, h4⟩
    simp [hp, hm]
  · refine ⟨SIZE_MAX, h1, ?_⟩
    have hm : col ∉ row_idx.take row_count := by
      rw [mem_take_iff]
      rintro ⟨i, hi, hic⟩
      exact h2 i (Nat.zero_le _) (by omega) hic
    simp [hm]

/-- C6, amended: for a grid whose `size * size` fits `size_t` and all `i, j < size * size`,
`find_elem` finds `j` in row `i` of `generate_matrix(size)` (its result is not `SIZE_MAX`) if
and only if it finds `i` in row `j`. -/
theorem generate_matrix_symmetric (size : Nat) (hrep : size * size ≤ SIZE_MAX) :
    ∃ m, generate_matrix size = Run.ok m ∧
      ∀ i j, i < size * size → j < size * size →
        ∃ bi ci bj cj pi pj, m.row_idx[i]? = some bi ∧ m.row_count[i]? = some ci ∧
          m.row_idx[j]? = some bj ∧ m.row_count[j]? = some cj ∧
          find_elem bi ci j = Run.ok pi ∧ find_elem bj cj i = Run.ok pj ∧
          (pi ≠ SIZE_MAX ↔ pj ≠ SIZE_MAX) := by
  obtain ⟨m, hm, hinv⟩ := generate_matrix_stored hrep
  refine ⟨m, hm, ?_⟩
  intro i j hi hj
  have hpos : 0 < size := by
    rcases Nat.eq_zero_or_pos size with h | h
    · subst h; simp at hi
    · exact h
  obtain ⟨gi1, gi2⟩ := hinv.2.2.2.2.1 i hi
  obtain ⟨gj1, gj2⟩ := hinv.2.2.2.2.1 j hj
  have hri : i / size < size := Nat.div_lt_of_lt_mul hi
  have hci : i % size < size := Nat.mod_lt _ hpos
  have hrj : j / size < size := Nat.div_lt_of_lt_mul hj
  have hcj : j % size < size := Nat.mod_lt _ hpos
  have hidec : i / size * size + i % size = i := by
    rw [Nat.mul_comm]; exact Nat.div_add_mod i size
  have hjdec : j / size * size + j % size = j := by
    rw [Nat.mul_comm]; exact Nat.div_add_mod j size
  have hlen : ∀ r c, r < size → c < size → (grid_neighbors size r c).length ≤ SIZE_MAX := by
    intro r c hr hc
    have := (fill_row_idxs_eq size r c 0 0 0 0 hrep hr hc).2.2.2
    have h4 : 4 ≤ SIZE_MAX := by decide
    omega
  obtain ⟨pi, hpi, hpi2⟩ := find_elem_mem j (le_refl _) (hlen _ _ hri hci)
  obtain ⟨pj, hpj, hpj2⟩ := find_elem_mem i (le_refl _) (hlen _ _ hrj hcj)
  refine ⟨_, _, _, _, pi, pj, gi1, gi2, gj1, gj2, hpi, hpj, ?_⟩
  rw [hpi2, hpj2, List.take_length, List.take_length]
  have := grid_neighbors_symm hri hci hrj hcj
  rw [hidec, hjdec] at this
  exact this

/-- Witness for C6 (amended) at `size = 3`. -/
theorem generate_matrix_symmetric_witness :
    3 * 3 ≤ SIZE_MAX ∧
    ∃ m, generate_matrix 3 = Run.ok m ∧
      ∀ i j, i < 3 * 3 → j < 3 * 3 →
        ∃ bi ci bj cj pi pj, m.row_idx[i]? = some bi ∧ m.row_count[i]? = some ci ∧
          m.row_idx[j]? = some bj ∧ m.row_count[j]? = some cj ∧
          find_elem bi ci j = Run.ok pi ∧ find_elem bj cj i = Run.ok pj ∧
          (pi ≠ SIZE_MAX ↔ pj ≠ SIZE_MAX) :=
  ⟨by decide, generate_matrix_symmetric 3 (by decide)⟩

/-- C6, as stated, fails when `size * size` wraps: for `size = 2^64 - 3` (where the program
computes `dim = 9`) `find_elem` finds 0 in row 3, at position 2, but does not find 3 in
row 0. -/
theorem generate_matrix_wrap_asymmetric :
    ∃ m b0 c0 b3 c3, generate_matrix 18446744073709551613 = Run.ok m ∧
      m.row_idx[0]? = some b0 ∧ m.row_count[0]? = some c0 ∧
      m.row_idx[3]? = some b3 ∧ m.row_count[3]? = some c3 ∧
      find_elem b3 c3 0 = Run.ok 2 ∧ find_elem b0 c0 3 = Run.ok SIZE_MAX := by
  refine ⟨{ row_idx := [[1, 18446744073709551613], [0, 2, 18446744073709551614],
              [1, 3, 18446744073709551615], [2, 4, 0], [3, 5, 1], [4, 6, 2], [5, 7, 3],
              [6, 8, 4], [7, 9, 5]],
            row_count := [2, 3, 3, 3, 3, 3, 3, 3, 3],
            row_reserved := [2, 3, 3, 3, 3, 3, 3, 3, 3], dim := 9, alloc_cnt := 13 },
    [1, 18446744073709551613], 2, [2, 4, 0], 3, by decide, rfl, rfl, rfl, rfl, by decide,
    by decide⟩

/-! ## The minimum of a row -/

/-- What `find_min_elem_loop` returns on cells inside the array: the least of the start value
and the inspected cells. -/
theorem find_min_elem_loop_spec (row_idx : List Nat) :
    ∀ (n pos acc : Nat), pos + n ≤ row_idx.length →
      ∃ v, find_min_elem_loop row_idx n pos acc = Run.ok v ∧ v ≤ acc ∧
        (∀ q x, pos ≤ q → q < pos + n → row_idx[q]? = some x → v ≤ x) ∧
        (v = acc ∨ ∃ q, pos ≤ q ∧ q < pos + n ∧ row_idx[q]? = some v) := by
  intro n
  induction n with
  | zero =>
    intro pos acc _
    exact ⟨acc, rfl, le_refl _, fun q x h1 h2 => by omega, Or.inl rfl⟩
  | succ n ih =>
    intro pos acc hlen
    have hpos : pos < row_idx.length := by omega
    have hget : row_idx[pos]? = some row_idx[pos] := List.getElem?_eq_getElem hpos
    have hrd : rd row_idx pos = Run.ok row_idx[pos] := by
      rw [rd_eq_ok, List.get?_eq_getElem?, hget]
    obtain ⟨v, h1, h2, h3, h4⟩ :=
      ih (pos + 1) (if row_idx[pos] < acc then row_idx[pos] else acc) (by omega)
    refine ⟨v, ?_, ?_, ?_, ?_⟩
    · simp only [find_min_elem_loop, hrd, Run.ok_bind]
      exact h1
    · split at h2 <;> omega
    · intro q x hq1 hq2 hqx
      by_cases hq : q = pos
      · subst hq
        rw [hget] at hqx
        have := Option.some.inj hqx
        split at h2 <;> omega
      · exact h3 q x (by omega) (by omega) hqx
    · rcases h4 with h4 | ⟨q, hq1, hq2, hq3⟩
      · by_cases hlt : row_idx[pos] < acc
        · right
          rw [if_pos hlt] at h4
          exact ⟨pos, le_refl _, by omega, by rw [hget, h4]⟩
        · left
          rw [if_neg hlt] at h4
          exact h4
      · right
        exact ⟨q, by omega, by omega, hq3⟩

/-- C13: `find_min_elem` returns `SIZE_MAX` when `row_count = 0`; otherwise it returns a value
that is one of the first `row_count` cells and is less than or equal to each of them. The array
holds at least `row_count` cells, each a `size_t` value. -/
theorem find_min_elem_spec (row_idx : List Nat) (row_count : Nat)
    (hlen : row_count ≤ row_idx.length) (hval : ∀ x ∈ row_idx.take row_count, x ≤ SIZE_MAX) :
    (row_count = 0 → find_min_elem row_idx row_count = Run.ok SIZE_MAX) ∧
    (row_count ≠ 0 → ∃ v, find_min_elem row_idx row_count = Run.ok v ∧
      v ∈ row_idx.take row_count ∧ ∀ x ∈ row_idx.take row_count, v ≤ x) := by
  constructor
  · intro h
    subst h
    rfl
  · intro hne
    obtain ⟨v, h1, h2, h3, h4⟩ := find_min_elem_loop_spec row_idx row_count 0 SIZE_MAX (by omega)
    have hall : ∀ x ∈ row_idx.take row_count, v ≤ x := by
      intro x hx
      obtain ⟨i, hi, hix⟩ := mem_take_iff.mp hx
      exact h3 i x (Nat.zero_le _) (by omega) hix
    refine ⟨v, h1, ?_, hall⟩
    rcases h4 with h4 | ⟨q, -, hq2, hq3⟩
    · have h0 : 0 < row_idx.length := by omega
      have hget : row_idx[0]? = some row_idx[0] := List.getElem?_eq_getElem h0
      have hmem : row_idx[0] ∈ row_idx.take row_count :=
        mem_take_iff.mpr ⟨0, by omega, hget⟩
      have ha := hall _ hmem
      have hb := hval _ hmem
      have : row_idx[0] = v := by omega
      rw [← this]
      exact hmem
    · exact mem_take_iff.mpr ⟨q, by omega, hq3⟩

/-- Witness for C13 on the row `{7, 3, 9}`. -/
theorem find_min_elem_spec_witness :
    (3 ≤ [7, 3, 9].length ∧ ∀ x ∈ [7, 3, 9].take 3, x ≤ SIZE_MAX) ∧
    ((3 = 0 → find_min_elem [7, 3, 9] 3 = Run.ok SIZE_MAX) ∧
     (3 ≠ 0 → ∃ v, find_min_elem [7, 3, 9] 3 = Run.ok v ∧
        v ∈ [7, 3, 9].take 3 ∧ ∀ x ∈ [7, 3, 9].take 3, v ≤ x)) :=
  ⟨⟨by decide, by decide⟩, find_min_elem_spec [7, 3, 9] 3 (by decide) (by decide)⟩
/-! ## Swapping two rows -/

theorem getElem?_set_set {α : Type} (l : List α) (i j k : Nat) (a b : α)
    (hi : i < l.length) (hj : j < l.length) :
    ((l.set i a).set j b)[k]? = if j = k then some b else if i = k then some a else l[k]? := by
  rw [List.getElem?_set, List.getElem?_set]
  simp [hi, hj]

theorem set_set_swap_back {α : Type} (l : List α) (i j : Nat) (a b : α)
    (hi : l[i]? = some a) (hj : l[j]? = some b) :
    (((l.set i b).set j a).set i a).set j b = l := by
  have hil : i < l.length := (List.getElem?_eq_some.mp hi).1
  have hjl : j < l.length := (List.getElem?_eq_some.mp hj).1
  apply List.ext_getElem?
  intro k
  rw [getElem?_set_set _ i j k a b (by simp [hil]) (by simp [hjl]),
    getElem?_set_set l i j k b a hil hjl]
  by_cases h1 : j = k
  · subst h1; simp [hj]
  · by_cases h2 : i = k
    · subst h2; simp [h1, hi]
    · simp [h1, h2]

/-- Effect of `bit_mat_swap_rows` on two positions that exist. -/
theorem bit_mat_swap_rows_ok {m : bit_mat_s} {i j : Nat} {bi bj : List Nat} {ci cj : Nat}
    (hbi : m.row_idx[i]? = some bi) (hbj : m.row_idx[j]? = some bj)
    (hci : m.row_count[i]? = some ci) (hcj : m.row_count[j]? = some cj) :
    bit_mat_swap_rows m i j = Run.ok
      { m with row_idx := (m.row_idx.set i bj).set j bi,
               row_count := (m.row_count.set i cj).set j ci } := by
  have h1 : i < m.row_idx.length := (List.getElem?_eq_some.mp hbi).1
  have h2 : j < m.row_idx.length := (List.getElem?_eq_some.mp hbj).1
  have h3 : i < m.row_count.length := (List.getElem?_eq_some.mp hci).1
  have h4 : j < m.row_count.length := (List.getElem?_eq_some.mp hcj).1
  have r1 : rd m.row_idx i = Run.ok bi := by rw [rd_eq_ok, List.get?_eq_getElem?]; exact hbi
  have r2 : rd m.row_idx j = Run.ok bj := by rw [rd_eq_ok, List.get?_eq_getElem?]; exact hbj
  have r3 : rd m.row_count i = Run.ok ci := by rw [rd_eq_ok, List.get?_eq_getElem?]; exact hci
  have r4 : rd m.row_count j = Run.ok cj := by rw [rd_eq_ok, List.get?_eq_getElem?]; exact hcj
  simp [bit_mat_swap_rows, r1, r2, r3, r4, wr, h1, h2, h3, h4]

/-- C14: for positions `i, j < dim` of a matrix whose arrays have `dim` entries, after
`bit_mat_swap_rows(m, i, j)` position `i` holds the buffer and count that position `j` held
before and vice versa, every other position keeps its buffer and count, `dim` is unchanged, and
the same swap applied a second time gives back the original matrix. -/
theorem bit_mat_swap_rows_spec (m : bit_mat_s) (i j : Nat)
    (hidx : m.row_idx.length = m.dim) (hcnt : m.row_count.length = m.dim)
    (hi : i < m.dim) (hj : j < m.dim) :
    ∃ m2, bit_mat_swap_rows m i j = Run.ok m2 ∧
      m2.row_idx[i]? = m.row_idx[j]? ∧ m2.row_count[i]? = m.row_count[j]? ∧
      m2.row_idx[j]? = m.row_idx[i]? ∧ m2.row_count[j]? = m.row_count[i]? ∧
      (∀ k, k ≠ i → k ≠ j →
        m2.row_idx[k]? = m.row_idx[k]? ∧ m2.row_count[k]? = m.row_count[k]?) ∧
      m2.dim = m.dim ∧
      bit_mat_swap_rows m2 i j = Run.ok m := by
  have h1 : i < m.row_idx.length := by omega
  have h2 : j < m.row_idx.length := by omega
  have h3 : i < m.row_count.length := by omega
  have h4 : j < m.row_count.length := by omega
  have hbi : m.row_idx[i]? = some m.row_idx[i] := List.getElem?_eq_getElem h1
  have hbj : m.row_idx[j]? = some m.row_idx[j] := List.getElem?_eq_getElem h2
  have hci : m.row_count[i]? = some m.row_count[i] := List.getElem?_eq_getElem h3
  have hcj : m.row_count[j]? = some m.row_count[j] := List.getElem?_eq_getElem h4
  have hsw := bit_mat_swap_rows_ok hbi hbj hci hcj
  have g1 : ∀ k, ((m.row_idx.set i m.row_idx[j]).set j m.row_idx[i])[k]? =
      if j = k then some m.row_idx[i] else if i = k then some m.row_idx[j]
      else m.row_idx[k]? := fun k => getElem?_set_set _ i j k _ _ h1 h2
  have g2 : ∀ k, ((m.row_count.set i m.row_count[j]).set j m.row_count[i])[k]? =
      if j = k then some m.row_count[i] else if i = k then some m.row_count[j]
      else m.row_count[k]? := fun k => getElem?_set_set _ i j k _ _ h3 h4
  refine ⟨_, hsw, ?_, ?_, ?_, ?_, ?_, rfl, ?_⟩
  · show ((m.row_idx.set i m.row_idx[j]).set j m.row_idx[i])[i]? = m.row_idx[j]?
    rw [g1, hbj]
    by_cases h : j = i
    · subst h; simp
    · simp [h]
  · show ((m.row_count.set i m.row_count[j]).set j m.row_count[i])[i]? = m.row_count[j]?
    rw [g2, hcj]
    by_cases h : j = i
    · subst h; simp
    · simp [h]
  · show ((m.row_idx.set i m.row_idx[j]).set j m.row_idx[i])[j]? = m.row_idx[i]?
    rw [g1, hbi]
    simp
  · show ((m.row_count.set i m.row_count[j]).set j m.row_count[i])[j]? = m.row_count[i]?
    rw [g2, hci]
    simp
  · intro k hki hkj
    constructor
    · show ((m.row_idx.set i m.row_idx[j]).set j m.row_idx[i])[k]? = m.row_idx[k]?
      rw [g1]
      simp [Ne.symm hki, Ne.symm hkj]
    · show ((m.row_count.set i m.row_count[j]).set j m.row_count[i])[k]? = m.row_count[k]?
      rw [g2]
      simp [Ne.symm hki, Ne.symm hkj]
  · have e1 : ((m.row_idx.set i m.row_idx[j]).set j m.row_idx[i])[i]? = some m.row_idx[j] := by
      rw [g1]
      by_cases h : j = i
      · subst h; simp
      · simp [h]
    have e2 : ((m.row_idx.set i m.row_idx[j]).set j m.row_idx[i])[j]? = some m.row_idx[i] := by
      rw [g1]; simp
    have e3 : ((m.row_count.set i m.row_count[j]).set j m.row_count[i])[i]? =
        some m.row_count[j] := by
      rw [g2]
      by_cases h : j = i
      · subst h; simp
      · simp [h]
    have e4 : ((m.row_count.set i m.row_count[j]).set j m.row_count[i])[j]? =
        some m.row_count[i] := by
      rw [g2]; simp
    rw [@bit_mat_swap_rows_ok _ i j _ _ _ _ e1 e2 e3 e4]
    simp only [set_set_swap_back m.row_idx i j _ _ hbi hbj,
      set_set_swap_back m.row_count i j _ _ hci hcj]

/-- Witness for C14 on the matrix of the 2 by 2 grid, positions 0 and 1. -/
theorem bit_mat_swap_rows_spec_witness :
    (grid_two.row_idx.length = grid_two.dim ∧ grid_two.row_count.length = grid_two.dim ∧
      0 < grid_two.dim ∧ 1 < grid_two.dim) ∧
    ∃ m2, bit_mat_swap_rows grid_two 0 1 = Run.ok m2 ∧
      m2.row_idx[0]? = grid_two.row_idx[1]? ∧ m2.row_count[0]? = grid_two.row_count[1]? ∧
      m2.row_idx[1]? = grid_two.row_idx[0]? ∧ m2.row_count[1]? = grid_two.row_count[0]? ∧
      (∀ k, k ≠ 0 → k ≠ 1 →
        m2.row_idx[k]? = grid_two.row_idx[k]? ∧ m2.row_count[k]? = grid_two.row_count[k]?) ∧
      m2.dim = grid_two.dim ∧
      bit_mat_swap_rows m2 0 1 = Run.ok grid_two :=
  ⟨⟨by decide, by decide, by decide, by decide⟩,
    bit_mat_swap_rows_spec grid_two 0 1 (by decide) (by decide) (by decide) (by decide)⟩
/-! ## Storing a row and reading it back -/

/-- On `row_count` cells inside the array, with `row_count` a `size_t` value, `find_elem`
returns a position other than `SIZE_MAX` exactly when `col` is among these cells. -/
theorem find_elem_present {row_idx : List Nat} {row_count : Nat} (col : Nat)
    (hc : row_count ≤ row_idx.length) (hs : row_count ≤ SIZE_MAX) :
    ∃ pos, find_elem row_idx row_count col = Run.ok pos ∧
      (pos ≠ SIZE_MAX ↔ col ∈ row_idx.take row_count) := by
  rcases find_elem_loop_spec row_idx col row_count 0 (by omega) with
    ⟨p, h1, -, h3, h4, -⟩ | ⟨h1, h2⟩
  · refine ⟨p, h1, ?_⟩
    have hp : p ≠ SIZE_MAX := by omega
    have hm : col ∈ row_idx.take row_count := mem_take_iff.mpr ⟨p, by omega, h4⟩
    simp [hp, hm]
  · refine ⟨SIZE_MAX, h1, ?_⟩
    have hm : col ∉ row_idx.take row_count := by
      rw [mem_take_iff]
      rintro ⟨i, hi, hic⟩
      exact h2 i (Nat.zero_le _) (by omega) hic
    simp [hm]

/-- The round trip of `bit_mat_set_row` and `find_elem` where the bookkeeping is honest: for a
position `row` that exists in the matrix, whose recorded capacity does not exceed the capacity
of the buffer stored there, and an index list `xs` of length `count`,
`bit_mat_set_row(m, row, xs, count)` returns, afterwards the count of the row is `count` and
`find_elem` on the row reports `col` present (a result other than `SIZE_MAX`) iff `col` occurs
in `xs`; the buffers and counts of all other positions are unchanged. Without the condition on
the recorded capacity this fails, see `set_row_overruns_stale_capacity`. -/
theorem bit_mat_set_row_read_back (m : bit_mat_s) (row count res : Nat) (xs buf : List Nat)
    (hb : m.row_idx[row]? = some buf) (hr : m.row_reserved[row]? = some res)
    (hc : row < m.row_count.length) (hcap : res ≤ buf.length)
    (hxs : xs.length = count) (hsz : count ≤ SIZE_MAX) :
    ∃ m2 buf2, bit_mat_set_row m row xs count = Run.ok m2 ∧
      m2.row_idx[row]? = some buf2 ∧ m2.row_count[row]? = some count ∧
      (∀ col, ∃ pos, find_elem buf2 count col = Run.ok pos ∧ (pos ≠ SIZE_MAX ↔ col ∈ xs)) ∧
      (∀ k, k ≠ row →
        m2.row_idx[k]? = m.row_idx[k]? ∧ m2.row_count[k]? = m.row_count[k]?) := by
  have hrow : row < m.row_idx.length := (List.getElem?_eq_some.mp hb).1
  have hfit : res < count ∨ count ≤ buf.length := by omega
  obtain ⟨m2, hset, e1, e2, -, -⟩ :=
    @bit_mat_set_row_fields m row count res xs buf hb hr hc (by omega) hfit
  have htake : List.take count xs = xs := by rw [← hxs]; exact List.take_length _
  rw [htake] at e1
  refine ⟨m2, xs ++ List.drop count (if res < count then realloc buf count else buf),
    hset, ?_, ?_, ?_, ?_⟩
  · rw [e1, List.getElem?_set]
    simp [hrow]
  · rw [e2, List.getElem?_set]
    simp [hc]
  · intro col
    have hlen : count ≤ (xs ++ List.drop count
        (if res < count then realloc buf count else buf)).length := by
      rw [List.length_append]; omega
    obtain ⟨pos, h1, h2⟩ := find_elem_present col hlen hsz
    refine ⟨pos, h1, ?_⟩
    rw [h2, List.take_append_of_le_length (by omega), htake]
  · intro k hk
    constructor
    · rw [e1, List.getElem?_set_ne (Ne.symm hk)]
    · rw [e2, List.getElem?_set_ne (Ne.symm hk)]

/-- The round trip at a concrete input: storing `{5, 1}` at position 2 of the matrix of the
2 by 2 grid. -/
theorem bit_mat_set_row_read_back_witness :
    (grid_two.row_idx[2]? = some [0, 3] ∧ grid_two.row_reserved[2]? = some 2 ∧
      2 < grid_two.row_count.length ∧ 2 ≤ [0, 3].length ∧ [5, 1].length = 2 ∧ 2 ≤ SIZE_MAX) ∧
    ∃ m2 buf2, bit_mat_set_row grid_two 2 [5, 1] 2 = Run.ok m2 ∧
      m2.row_idx[2]? = some buf2 ∧ m2.row_count[2]? = some 2 ∧
      (∀ col, ∃ pos, find_elem buf2 2 col = Run.ok pos ∧ (pos ≠ SIZE_MAX ↔ col ∈ [5, 1])) ∧
      (∀ k, k ≠ 2 →
        m2.row_idx[k]? = grid_two.row_idx[k]? ∧ m2.row_count[k]? = grid_two.row_count[k]?) :=
  ⟨⟨rfl, rfl, by decide, by decide, rfl, by decide⟩,
    bit_mat_set_row_read_back grid_two 2 2 2 [5, 1] [0, 3] rfl rfl (by decide) (by decide) rfl
      (by decide)⟩

/-! ## The two branches of a flip -/

/-- Removing branch of `flip_elem_unsafe`: `col` is among the cells in use of a duplicate-free
row. -/
theorem flip_elem_remove {row_idx : List Nat} {row_count col : Nat}
    (hlen : row_count ≤ row_idx.length) (hsize : row_count ≤ SIZE_MAX)
    (hnd : (row_idx.take row_count).Nodup) (hmem : col ∈ row_idx.take row_count) :
    ∃ row_idx2, flip_elem_unsafe row_idx row_count col = Run.ok (row_idx2, row_count - 1) ∧
      row_idx2.length = row_idx.length ∧ (row_idx2.take (row_count - 1)).Nodup ∧
      ∀ x, x ∈ row_idx2.take (row_count - 1) ↔ x ∈ row_idx.take row_count ∧ x ≠ col := by
  have hnd2 := (nodup_take_iff hlen).mp hnd
  rcases find_elem_loop_spec row_idx col row_count 0 (by omega) with
    ⟨p, h1, -, h3, h4, -⟩ | ⟨-, h2⟩
  · have hp : p ≠ SIZE_MAX := by omega
    have hlast : row_count - 1 < row_idx.length := by omega
    have hrd : rd row_idx (row_count - 1) = Run.ok row_idx[row_count - 1] := by
      rw [rd_eq_ok, List.get?_eq_getElem?, List.getElem?_eq_getElem hlast]
    have hwr : wr row_idx p row_idx[row_count - 1] =
        Run.ok (row_idx.set p row_idx[row_count - 1]) := by
      rw [wr_eq_ok]; exact ⟨by omega, rfl⟩
    have hlast2 : row_idx[row_count - 1]? = some row_idx[row_count - 1] :=
      List.getElem?_eq_getElem hlast
    have huniq : ∀ q, q < row_count → row_idx[q]? = some col → q = p := by
      intro q hq hqc
      by_contra hne
      rcases Nat.lt_or_gt_of_ne hne with hlt | hgt
      · exact hnd2 q p hlt (by omega) (by rw [hqc, h4])
      · exact hnd2 p q hgt hq (by rw [hqc, h4])
    have hget : ∀ i, (row_idx.set p row_idx[row_count - 1])[i]? =
        if p = i then some row_idx[row_count - 1] else row_idx[i]? := by
      intro i
      rw [List.getElem?_set]
      have : p < row_idx.length := by omega
      simp [this]
    refine ⟨row_idx.set p row_idx[row_count - 1], ?_, by simp, ?_, ?_⟩
    · simp [find_elem, flip_elem_unsafe, h1, hp, hrd, hwr]
    · have hlen2 : row_count - 1 ≤ (row_idx.set p row_idx[row_count - 1]).length := by
        simp; omega
      rw [nodup_take_iff hlen2]
      intro i j hij hj
      rw [hget, hget]
      by_cases hpi : p = i
      · subst hpi
        have hpj : p ≠ j := by omega
        simp only [if_true, hpj, if_false]
        rw [← hlast2]
        exact fun h => hnd2 j (row_count - 1) (by omega) (by omega) h.symm
      · by_cases hpj : p = j
        · subst hpj
          simp only [hpi, if_false, if_true]
          rw [← hlast2]
          exact hnd2 i (row_count - 1) (by omega) (by omega)
        · simp only [hpi, hpj, if_false]
          exact hnd2 i j hij (by omega)
    · intro x
      rw [mem_take_iff, mem_take_iff]
      constructor
      · rintro ⟨i, hi, hix⟩
        rw [hget] at hix
        by_cases hpi : p = i
        · subst hpi
          simp only [if_true] at hix
          refine ⟨⟨row_count - 1, by omega, by rw [hlast2, hix]⟩, ?_⟩
          intro hxc
          subst hxc
          have := huniq (row_count - 1) (by omega) (by rw [hlast2, hix])
          omega
        · simp only [hpi, if_false] at hix
          refine ⟨⟨i, by omega, hix⟩, ?_⟩
          intro hxc
          subst hxc
          have := huniq i (by omega) hix
          omega
      · rintro ⟨⟨i, hi, hix⟩, hx⟩
        have hip : i ≠ p := by
          intro h
          subst h
          rw [h4] at hix
          exact hx (Option.some.inj hix).symm
        by_cases hil : i = row_count - 1
        · subst hil
          refine ⟨p, by omega, ?_⟩
          rw [hget]
          simp only [if_true]
          rw [← hlast2, hix]
        · refine ⟨i, by omega, ?_⟩
          rw [hget]
          simp only [Ne.symm hip, if_false]
          exact hix
  · exfalso
    obtain ⟨i, hi, hic⟩ := mem_take_iff.mp hmem
    exact h2 i (Nat.zero_le _) (by omega) hic

/-- Adding branch of `flip_elem_unsafe`: `col` is not among the cells in use and one more cell
is free. -/
theorem flip_elem_add {row_idx : List Nat} {row_count col : Nat}
    (hcap : row_count < row_idx.length) (hsize : row_count < SIZE_MAX)
    (hnd : (row_idx.take row_count).Nodup) (hmem : col ∉ row_idx.take row_count) :
    ∃ row_idx2, flip_elem_unsafe row_idx row_count col = Run.ok (row_idx2, row_count + 1) ∧
      row_idx2.length = row_idx.length ∧ (row_idx2.take (row_count + 1)).Nodup ∧
      ∀ x, x ∈ row_idx2.take (row_count + 1) ↔ x ∈ row_idx.take row_count ∨ x = col := by
  have hnd2 := (nodup_take_iff (Nat.le_of_lt hcap)).mp hnd
  have hmax : SIZE_MAX = 2 ^ 64 - 1 := rfl
  rcases find_elem_loop_spec row_idx col row_count 0 (by omega) with
    ⟨p, -, -, h3, h4, -⟩ | ⟨h1, h2⟩
  · exact absurd (mem_take_iff.mpr ⟨p, by omega, h4⟩) hmem
  · have hwr : wr row_idx row_count col = Run.ok (row_idx.set row_count col) := by
      rw [wr_eq_ok]; exact ⟨hcap, rfl⟩
    have hwrap : size_t_wrap (row_count + 1) = row_count + 1 :=
      size_t_wrap_of_le (by omega)
    have hget : ∀ i, (row_idx.set row_count col)[i]? =
        if row_count = i then some col else row_idx[i]? := by
      intro i
      rw [List.getElem?_set]
      simp [hcap]
    refine ⟨row_idx.set row_count col, ?_, by simp, ?_, ?_⟩
    · simp [find_elem, flip_elem_unsafe, h1, hwr, hwrap]
    · have hlen : row_count + 1 ≤ (row_idx.set row_count col).length := by
        simp; omega
      rw [nodup_take_iff hlen]
      intro i j hij hj
      rw [hget, hget]
      have hci : row_count ≠ i := by omega
      simp only [hci, if_false]
      by_cases hcj : row_count = j
      · subst hcj
        simp only [if_true]
        exact h2 i (Nat.zero_le _) (by omega)
      · simp only [hcj, if_false]
        exact hnd2 i j hij (by omega)
    · intro x
      rw [mem_take_iff, mem_take_iff]
      constructor
      · rintro ⟨i, hi, hix⟩
        rw [hget] at hix
        by_cases hci : row_count = i
        · subst hci
          simp only [if_true] at hix
          exact Or.inr (Option.some.inj hix).symm
        · simp only [hci, if_false] at hix
          exact Or.inl ⟨i, by omega, hix⟩
      · rintro (⟨i, hi, hix⟩ | hx)
        · refine ⟨i, by omega, ?_⟩
          rw [hget]
          have : row_count ≠ i := by omega
          simp only [this, if_false]
          exact hix
        · subst hx
          exact ⟨row_count, by omega, by rw [hget]; simp⟩

/-- C11: on a duplicate-free row with room for one more cell, two successive calls of
`flip_elem_unsafe` with the same `col` give back the original membership state: the count is
the original count and every index is among the cells in use afterwards iff it was before (the
order of the cells may differ). -/
theorem flip_elem_unsafe_twice (row_idx : List Nat) (row_count col : Nat)
    (hcap : row_count < row_idx.length) (hsize : row_idx.length ≤ SIZE_MAX)
    (hnd : (row_idx.take row_count).Nodup) :
    ∃ row_idx1 row_count1 row_idx2,
      flip_elem_unsafe row_idx row_count col = Run.ok (row_idx1, row_count1) ∧
      flip_elem_unsafe row_idx1 row_count1 col = Run.ok (row_idx2, row_count) ∧
      (∀ x, x ∈ row_idx2.take row_count ↔ x ∈ row_idx.take row_count) ∧
      (row_idx2.take row_count).Nodup := by
  by_cases hmem : col ∈ row_idx.take row_count
  · have hpos : 0 < row_count := by
      obtain ⟨i, hi, -⟩ := mem_take_iff.mp hmem
      omega
    obtain ⟨r1, f1, l1, n1, m1⟩ := flip_elem_remove (by omega) (by omega) hnd hmem
    have hnot : col ∉ r1.take (row_count - 1) := by
      rw [m1]; exact fun h => h.2 rfl
    obtain ⟨r2, f2, -, n2, m2⟩ :=
      @flip_elem_add r1 (row_count - 1) col (by omega) (by omega) n1 hnot
    have hc : row_count - 1 + 1 = row_count := by omega
    rw [hc] at f2 n2 m2
    refine ⟨r1, row_count - 1, r2, f1, f2, ?_, n2⟩
    intro x
    rw [m2, m1]
    constructor
    · rintro (⟨h, -⟩ | h)
      · exact h
      · rw [h]; exact hmem
    · intro h
      by_cases hx : x = col
      · exact Or.inr hx
      · exact Or.inl ⟨h, hx⟩
  · obtain ⟨r1, f1, l1, n1, m1⟩ := flip_elem_add hcap (by omega) hnd hmem
    have hin : col ∈ r1.take (row_count + 1) := by
      rw [m1]; exact Or.inr rfl
    obtain ⟨r2, f2, -, n2, m2⟩ :=
      @flip_elem_remove r1 (row_count + 1) col (by omega) (by omega) n1 hin
    have hc : row_count + 1 - 1 = row_count := by omega
    rw [hc] at f2 n2 m2
    refine ⟨r1, row_count + 1, r2, f1, f2, ?_, n2⟩
    intro x
    rw [m2, m1]
    constructor
    · rintro ⟨h | h, hx⟩
      · exact h
      · exact absurd h hx
    · intro h
      refine ⟨Or.inl h, ?_⟩
      intro hx
      rw [hx] at h
      exact hmem h

/-- Witness for C11: flipping 7 twice in the row `{5, 7, 9}` held in four cells. -/
theorem flip_elem_unsafe_twice_witness :
    (3 < [5, 7, 9, 0].length ∧ [5, 7, 9, 0].length ≤ SIZE_MAX ∧ ([5, 7, 9, 0].take 3).Nodup) ∧
    ∃ row_idx1 row_count1 row_idx2,
      flip_elem_unsafe [5, 7, 9, 0] 3 7 = Run.ok (row_idx1, row_count1) ∧
      flip_elem_unsafe row_idx1 row_count1 7 = Run.ok (row_idx2, 3) ∧
      (∀ x, x ∈ row_idx2.take 3 ↔ x ∈ [5, 7, 9, 0].take 3) ∧
      (row_idx2.take 3).Nodup :=
  ⟨⟨by decide, by decide, by decide⟩,
    flip_elem_unsafe_twice [5, 7, 9, 0] 3 7 (by decide) (by decide) (by decide)⟩

/-- C11, as stated for every row, fails. A row that fills its array, `{5}` in one cell (as
every matrix row does right after `bit_mat_set_row`), has no room: the flip of the absent
index 7 stores outside the array. And on cells with a duplicate, `{5, 5}` in an array of three
cells, two flips of 5 end with no cell in use, so the count is 0 instead of 2 and 5 is no
longer a member. -/
theorem flip_elem_unsafe_twice_fails :
    flip_elem_unsafe [5, 5, 0] 2 5 = Run.ok ([5, 5, 0], 1) ∧
      flip_elem_unsafe [5, 5, 0] 1 5 = Run.ok ([5, 5, 0], 0) ∧
      5 ∈ [5, 5, 0].take 2 ∧ 5 ∉ [5, 5, 0].take 0 ∧
      flip_elem_unsafe [5] 1 7 = Run.fault := by
  decide
/-! ## The inner loop: symmetric difference -/

theorem length_lt_of_nodup_of_lt {l : List Nat} {L c : Nat} (hnd : l.Nodup)
    (hb : ∀ x ∈ l, x < L) (hc : c < L) (hcl : c ∉ l) : l.length < L := by
  have hnd2 : (c :: l).Nodup := List.nodup_cons.mpr ⟨hcl, hnd⟩
  have hsub : (c :: l).toFinset ⊆ Finset.range L := by
    intro x hx
    rw [List.mem_toFinset, List.mem_cons] at hx
    rw [Finset.mem_range]
    rcases hx with h | h
    · rw [h]; exact hc
    · exact hb x h
  have hcard := Finset.card_le_card hsub
  rw [List.toFinset_card_of_nodup hnd2, Finset.card_range, List.length_cons] at hcard
  omega

theorem take_drop_succ {l : List Nat} {pos n : Nat} (hpos : pos < l.length) :
    (l.drop pos).take (n + 1) = l[pos] :: (l.drop (pos + 1)).take n := by
  rw [List.drop_eq_getElem_cons hpos, List.take_succ_cons]

/-- The inner `for` loop on a duplicate-free scratch buffer of `L` cells and a duplicate-free
stretch of the pivot row, all indices below `L`: the loop returns, the cells in use stay
duplicate-free and hold the symmetric difference. -/
theorem flip_loop_spec (pivot_idx : List Nat) (L : Nat) (hL : L ≤ SIZE_MAX) :
    ∀ (n pos : Nat) (tmp_idx : List Nat) (tmp_cnt : Nat),
      pos + n ≤ pivot_idx.length → tmp_idx.length = L → tmp_cnt ≤ L →
      (tmp_idx.take tmp_cnt).Nodup → (∀ x ∈ tmp_idx.take tmp_cnt, x < L) →
      ((pivot_idx.drop pos).take n).Nodup → (∀ x ∈ (pivot_idx.drop pos).take n, x < L) →
      ∃ tmp2 cnt2, flip_loop pivot_idx n pos tmp_idx tmp_cnt = Run.ok (tmp2, cnt2) ∧
        tmp2.length = L ∧ cnt2 ≤ L ∧ (tmp2.take cnt2).Nodup ∧
        ∀ x, x ∈ tmp2.take cnt2 ↔
          (x ∈ tmp_idx.take tmp_cnt ∧ x ∉ (pivot_idx.drop pos).take n) ∨
          (x ∉ tmp_idx.take tmp_cnt ∧ x ∈ (pivot_idx.drop pos).take n) := by
  intro n
  induction n with
  | zero =>
    intro pos tmp_idx tmp_cnt _ hlen hcnt hnd _ _ _
    refine ⟨tmp_idx, tmp_cnt, rfl, hlen, hcnt, hnd, ?_⟩
    intro x
    simp
  | succ n ih =>
    intro pos tmp_idx tmp_cnt hpn hlen hcnt hnd hb hqnd hqb
    have hpos : pos < pivot_idx.length := by omega
    have hq := @take_drop_succ pivot_idx pos n hpos
    rw [hq] at hqnd hqb
    have hcolq : pivot_idx[pos] ∉ (pivot_idx.drop (pos + 1)).take n :=
      (List.nodup_cons.mp hqnd).1
    have hqnd2 : ((pivot_idx.drop (pos + 1)).take n).Nodup := (List.nodup_cons.mp hqnd).2
    have hcolL : pivot_idx[pos] < L := hqb _ (List.mem_cons_self _ _)
    have hqb2 : ∀ x ∈ (pivot_idx.drop (pos + 1)).take n, x < L :=
      fun x hx => hqb x (List.mem_cons_of_mem _ hx)
    have hrd : rd pivot_idx pos = Run.ok pivot_idx[pos] := by
      rw [rd_eq_ok, List.get?_eq_getElem?, List.getElem?_eq_getElem hpos]
    by_cases hmem : pivot_idx[pos] ∈ tmp_idx.take tmp_cnt
    · obtain ⟨r1, f1, l1, n1, m1⟩ :=
        @flip_elem_remove tmp_idx tmp_cnt pivot_idx[pos] (by omega) (by omega) hnd hmem
      have hb1 : ∀ x ∈ r1.take (tmp_cnt - 1), x < L := fun x hx => hb x ((m1 x).mp hx).1
      obtain ⟨t2, c2, g1, g2, g3, g4, g5⟩ :=
        ih (pos + 1) r1 (tmp_cnt - 1) (by omega) (by omega) (by omega) n1 hb1 hqnd2 hqb2
      refine ⟨t2, c2, ?_, g2, g3, g4, ?_⟩
      · simp only [flip_loop, hrd, Run.ok_bind, f1]
        exact g1
      · intro x
        rw [g5, m1, hq, List.mem_cons]
        by_cases hx : x = pivot_idx[pos]
        · subst hx
          simp [hmem, hcolq]
        · simp [hx]
    · have hlt : tmp_cnt < L := by
        have := length_lt_of_nodup_of_lt hnd hb hcolL hmem
        rw [List.length_take] at this
        omega
      obtain ⟨r1, f1, l1, n1, m1⟩ :=
        @flip_elem_add tmp_idx tmp_cnt pivot_idx[pos] (by omega) (by omega) hnd hmem
      have hb1 : ∀ x ∈ r1.take (tmp_cnt + 1), x < L := by
        intro x hx
        rcases (m1 x).mp hx with h | h
        · exact hb x h
        · rw [h]; exact hcolL
      obtain ⟨t2, c2, g1, g2, g3, g4, g5⟩ :=
        ih (pos + 1) r1 (tmp_cnt + 1) (by omega) (by omega) (by omega) n1 hb1 hqnd2 hqb2
      refine ⟨t2, c2, ?_, g2, g3, g4, ?_⟩
      · simp only [flip_loop, hrd, Run.ok_bind, f1]
        exact g1
      · intro x
        rw [g5, m1, hq, List.mem_cons]
        by_cases hx : x = pivot_idx[pos]
        · subst hx
          simp [hmem, hcolq]
        · simp [hx]

/-- C20: for a duplicate-free scratch buffer `t` (the first `tmp_cnt` cells of `tmp_idx`) and a
duplicate-free pivot row `p` (the first `pivot_cnt` cells of `pivot_idx`), with all indices
below the number of cells of the scratch buffer, the inner `for` loop of
`get_image_dimension`, one `flip_elem_unsafe` on the scratch buffer for each element of `p` in
order, returns a duplicate-free list whose members are exactly the indices that are in one of
`t`, `p` and not in the other: the sum of the two rows over GF(2). -/
theorem flip_loop_symmetric_difference (tmp_idx pivot_idx : List Nat)
    (tmp_cnt pivot_cnt : Nat)
    (hcap : tmp_cnt ≤ tmp_idx.length) (hsize : tmp_idx.length ≤ SIZE_MAX)
    (hpc : pivot_cnt ≤ pivot_idx.length)
    (hnt : (tmp_idx.take tmp_cnt).Nodup) (hnp : (pivot_idx.take pivot_cnt).Nodup)
    (hbt : ∀ x ∈ tmp_idx.take tmp_cnt, x < tmp_idx.length)
    (hbp : ∀ x ∈ pivot_idx.take pivot_cnt, x < tmp_idx.length) :
    ∃ tmp2 cnt2, flip_loop pivot_idx pivot_cnt 0 tmp_idx tmp_cnt = Run.ok (tmp2, cnt2) ∧
      (tmp2.take cnt2).Nodup ∧
      ∀ x, x ∈ tmp2.take cnt2 ↔
        (x ∈ tmp_idx.take tmp_cnt ∧ x ∉ pivot_idx.take pivot_cnt) ∨
        (x ∉ tmp_idx.take tmp_cnt ∧ x ∈ pivot_idx.take pivot_cnt) := by
  have h0 : pivot_idx.drop 0 = pivot_idx := rfl
  obtain ⟨t2, c2, g1, -, -, g4, g5⟩ :=
    flip_loop_spec pivot_idx tmp_idx.length hsize pivot_cnt 0 tmp_idx tmp_cnt (by omega) rfl hcap
      hnt hbt (by rw [h0]; exact hnp) (by rw [h0]; exact hbp)
  rw [h0] at g5
  exact ⟨t2, c2, g1, g4, g5⟩

/-- Witness for C20: the scratch buffer `{0, 3}` in four cells and the pivot row `{3, 1}`. -/
theorem flip_loop_symmetric_difference_witness :
    (2 ≤ [0, 3, 0, 0].length ∧ [0, 3, 0, 0].length ≤ SIZE_MAX ∧ 2 ≤ [3, 1].length ∧
      ([0, 3, 0, 0].take 2).Nodup ∧ ([3, 1].take 2).Nodup ∧
      (∀ x ∈ [0, 3, 0, 0].take 2, x < [0, 3, 0, 0].length) ∧
      (∀ x ∈ [3, 1].take 2, x < [0, 3, 0, 0].length)) ∧
    ∃ tmp2 cnt2, flip_loop [3, 1] 2 0 [0, 3, 0, 0] 2 = Run.ok (tmp2, cnt2) ∧
      (tmp2.take cnt2).Nodup ∧
      ∀ x, x ∈ tmp2.take cnt2 ↔
        (x ∈ [0, 3, 0, 0].take 2 ∧ x ∉ [3, 1].take 2) ∨
        (x ∉ [0, 3, 0, 0].take 2 ∧ x ∈ [3, 1].take 2) :=
  ⟨⟨by decide, by decide, by decide, by decide, by decide, by decide, by decide⟩,
    flip_loop_symmetric_difference [0, 3, 0, 0] [3, 1] 2 2 (by decide) (by decide) (by decide)
      (by decide) (by decide) (by decide) (by decide)⟩
/-! ## Frame facts for the sweep -/

theorem memcpy_cells_inv {dst src dst2 : List Nat} {count : Nat}
    (h : memcpy dst src (count * SIZEOF_SIZE_T) = Run.ok dst2) :
    count ≤ dst.length ∧ count ≤ src.length ∧ dst2 = src.take count ++ dst.drop count := by
  simp only [memcpy, SIZEOF_SIZE_T, Nat.mul_mod_left, Nat.mul_div_left count (by decide : 0 < 8),
    if_true] at h
  split at h
  · rename_i hle
    simp at h
    exact ⟨hle.1, hle.2, h.symm⟩
  · cases h

theorem bit_mat_row_reserve_frame {m m2 : bit_mat_s} {row count : Nat}
    (h : bit_mat_row_reserve m row count = Run.ok m2) :
    m2.row_count = m.row_count ∧ ∀ k, k ≠ row → m2.row_idx[k]? = m.row_idx[k]? := by
  unfold bit_mat_row_reserve at h
  obtain ⟨a, -, h⟩ := Run.bind_eq_ok.mp h
  obtain ⟨b, -, h⟩ := Run.bind_eq_ok.mp h
  split at h
  · obtain ⟨ri, hri, h⟩ := Run.bind_eq_ok.mp h
    obtain ⟨rr, -, h⟩ := Run.bind_eq_ok.mp h
    simp at h
    rw [← h]
    refine ⟨rfl, ?_⟩
    intro k hk
    rw [wr_eq_ok] at hri
    show ri[k]? = m.row_idx[k]?
    rw [hri.2, List.getElem?_set_ne (Ne.symm hk)]
  · simp at h
    rw [h]
    exact ⟨rfl, fun _ _ => rfl⟩

/-- What a returning `bit_mat_set_row` leaves behind: the other positions keep buffer and
count, the position itself holds `count` cells equal to those of the source. -/
theorem bit_mat_set_row_frame {m m2 : bit_mat_s} {row count : Nat} {src : List Nat}
    (h : bit_mat_set_row m row src count = Run.ok m2) :
    (∀ k, k ≠ row → m2.row_idx[k]? = m.row_idx[k]? ∧ m2.row_count[k]? = m.row_count[k]?) ∧
      ∃ buf, m2.row_idx[row]? = some buf ∧ m2.row_count[row]? = some count ∧
        count ≤ buf.length ∧ ∀ k, k < count → buf[k]? = src[k]? := by
  unfold bit_mat_set_row at h
  obtain ⟨ma, hma, h⟩ := Run.bind_eq_ok.mp h
  obtain ⟨dst, -, h⟩ := Run.bind_eq_ok.mp h
  obtain ⟨dst2, hcp, h⟩ := Run.bind_eq_ok.mp h
  obtain ⟨ri, hri, h⟩ := Run.bind_eq_ok.mp h
  obtain ⟨rc, hrc, h⟩ := Run.bind_eq_ok.mp h
  simp at h
  obtain ⟨f1, f2⟩ := bit_mat_row_reserve_frame hma
  obtain ⟨c1, c2, c3⟩ := memcpy_cells_inv hcp
  rw [wr_eq_ok] at hri hrc
  rw [← h]
  constructor
  · intro k hk
    constructor
    · show ri[k]? = m.row_idx[k]?
      rw [hri.2, List.getElem?_set_ne (Ne.symm hk), f2 k hk]
    · show rc[k]? = m.row_count[k]?
      rw [hrc.2, List.getElem?_set_ne (Ne.symm hk), f1]
  · refine ⟨dst2, ?_, ?_, ?_, ?_⟩
    · show ri[row]? = some dst2
      rw [hri.2, List.getElem?_set]
      simp [hri.1]
    · show rc[row]? = some count
      rw [hrc.2, List.getElem?_set]
      simp [hrc.1]
    · rw [c3, List.length_append, List.length_take, List.length_drop]
      omega
    · intro k hk
      rw [c3, List.getElem?_append_left (by rw [List.length_take]; omega),
        List.getElem?_take]
      simp [hk]

/-- What a returning `bit_mat_swap_rows` leaves behind. -/
theorem bit_mat_swap_rows_frame {m m2 : bit_mat_s} {row1 row2 : Nat}
    (h : bit_mat_swap_rows m row1 row2 = Run.ok m2) :
    m2.row_idx[row2]? = m.row_idx[row1]? ∧ m2.row_count[row2]? = m.row_count[row1]? ∧
      ∀ k, k ≠ row1 → k ≠ row2 →
        m2.row_idx[k]? = m.row_idx[k]? ∧ m2.row_count[k]? = m.row_count[k]? := by
  have h0 := h
  unfold bit_mat_swap_rows at h
  obtain ⟨b1, hb1, h⟩ := Run.bind_eq_ok.mp h
  obtain ⟨b2, hb2, h⟩ := Run.bind_eq_ok.mp h
  obtain ⟨a3, -, h⟩ := Run.bind_eq_ok.mp h
  obtain ⟨a4, -, h⟩ := Run.bind_eq_ok.mp h
  obtain ⟨c1, hc1, h⟩ := Run.bind_eq_ok.mp h
  obtain ⟨c2, hc2, h⟩ := Run.bind_eq_ok.mp h
  rw [rd_eq_ok, List.get?_eq_getElem?] at hb1 hb2 hc1 hc2
  have hok := bit_mat_swap_rows_ok hb1 hb2 hc1 hc2
  rw [h0] at hok
  have hm2 := Run.ok.inj hok
  have l1 : row1 < m.row_idx.length := (List.getElem?_eq_some.mp hb1).1
  have l2 : row2 < m.row_idx.length := (List.getElem?_eq_some.mp hb2).1
  have l3 : row1 < m.row_count.length := (List.getElem?_eq_some.mp hc1).1
  have l4 : row2 < m.row_count.length := (List.getElem?_eq_some.mp hc2).1
  rw [hm2]
  refine ⟨?_, ?_, ?_⟩
  · show ((m.row_idx.set row1 b2).set row2 b1)[row2]? = m.row_idx[row1]?
    rw [getElem?_set_set _ _ _ _ _ _ l1 l2, hb1]; simp
  · show ((m.row_count.set row1 c2).set row2 c1)[row2]? = m.row_count[row1]?
    rw [getElem?_set_set _ _ _ _ _ _ l3 l4, hc1]; simp
  · intro k hk1 hk2
    constructor
    · show ((m.row_idx.set row1 b2).set row2 b1)[k]? = m.row_idx[k]?
      rw [getElem?_set_set _ _ _ _ _ _ l1 l2]; simp [Ne.symm hk1, Ne.symm hk2]
    · show ((m.row_count.set row1 c2).set row2 c1)[k]? = m.row_count[k]?
      rw [getElem?_set_set _ _ _ _ _ _ l3 l4]; simp [Ne.symm hk1, Ne.symm hk2]

theorem find_min_elem_loop_congr {a b : List Nat} :
    ∀ (n pos acc : Nat), (∀ k, pos ≤ k → k < pos + n → a[k]? = b[k]?) →
      find_min_elem_loop a n pos acc = find_min_elem_loop b n pos acc := by
  intro n
  induction n with
  | zero => intro _ _ _; rfl
  | succ n ih =>
    intro pos acc h
    have hrd : rd a pos = rd b pos := by
      unfold rd
      rw [List.get?_eq_getElem?, List.get?_eq_getElem?, h pos (le_refl _) (by omega)]
    simp only [find_min_elem_loop, hrd]
    congr 1
    funext x
    exact ih _ _ (fun k h1 h2 => h k (by omega) (by omega))

/-- The value of `min_col` on leaving the `while` loop is the minimum of the scratch buffer as
it is then, and it is not below the pivot. -/
theorem sweep_loop_result (m : bit_mat_s) (pivot : Nat) :
    ∀ (fuel : Nat) (tmp_idx : List Nat) (tmp_cnt : Nat) (res : List Nat × Nat × Nat),
      sweep_loop m pivot fuel tmp_idx tmp_cnt = Run.ok res →
      find_min_elem res.1 res.2.1 = Run.ok res.2.2 ∧ ¬ res.2.2 < pivot := by
  intro fuel
  induction fuel with
  | zero =>
    intro _ _ _ h
    cases h
  | succ fuel ih =>
    intro tmp_idx tmp_cnt res h
    simp only [sweep_loop] at h
    obtain ⟨mc, hmc, h⟩ := Run.bind_eq_ok.mp h
    split at h
    · obtain ⟨pi, -, h⟩ := Run.bind_eq_ok.mp h
      obtain ⟨pc, -, h⟩ := Run.bind_eq_ok.mp h
      obtain ⟨q, -, h⟩ := Run.bind_eq_ok.mp h
      exact ih _ _ _ h
    · rename_i hlt
      simp at h
      rw [← h]
      exact ⟨hmc, hlt⟩
/-! ## Pivot rows stay where they are -/

/-- The row scan for one pivot column: positions below the first scanned row keep buffer and
count, and a scan that stops before the end leaves at the position where it stopped a row
whose minimum is the pivot column. -/
theorem scan_rows_spec (fuel pivot : Nat) :
    ∀ (n row : Nat) (m : bit_mat_s) (tmp_idx : List Nat) (res : bit_mat_s × List Nat × Nat),
      scan_rows fuel pivot n row m tmp_idx = Run.ok res →
      (∀ k, k < row →
        res.1.row_idx[k]? = m.row_idx[k]? ∧ res.1.row_count[k]? = m.row_count[k]?) ∧
      row ≤ res.2.2 ∧ res.2.2 ≤ row + n ∧
      (res.2.2 < row + n → ∃ buf cnt, res.1.row_idx[res.2.2]? = some buf ∧
        res.1.row_count[res.2.2]? = some cnt ∧ find_min_elem buf cnt = Run.ok pivot) := by
  intro n
  induction n with
  | zero =>
    intro row m tmp_idx res h
    simp [scan_rows] at h
    rw [← h]
    exact ⟨fun _ _ => ⟨rfl, rfl⟩, le_refl _, le_refl _, fun h => absurd h (by simp)⟩
  | succ n ih =>
    intro row m tmp_idx res h
    simp only [scan_rows] at h
    obtain ⟨⟨t1, c1⟩, -, h⟩ := Run.bind_eq_ok.mp h
    obtain ⟨⟨t2, c2, mc⟩, hb, h⟩ := Run.bind_eq_ok.mp h
    obtain ⟨m2, hm2, h⟩ := Run.bind_eq_ok.mp h
    obtain ⟨hmin, -⟩ := sweep_loop_result _ _ _ _ _ _ hb
    simp only [] at h hmin hm2
    obtain ⟨fr, buf, g1, g2, g3, g4⟩ := bit_mat_set_row_frame hm2
    split at h
    · rename_i heq
      simp at h
      rw [← h]
      refine ⟨fun k hk => fr k (by omega), le_refl _, by simp, ?_⟩
      intro _
      refine ⟨buf, c2, g1, g2, ?_⟩
      have hc : find_min_elem buf c2 = find_min_elem t2 c2 :=
        find_min_elem_loop_congr _ _ _ (fun k _ hk => g4 k (by omega))
      rw [hc, hmin, heq]
    · obtain ⟨i1, i2, i3, i4⟩ := ih _ _ _ _ h
      refine ⟨?_, by omega, by omega, ?_⟩
      · intro k hk
        obtain ⟨j1, j2⟩ := i1 k (by omega)
        obtain ⟨j3, j4⟩ := fr k (by omega)
        exact ⟨j1.trans j3, j2.trans j4⟩
      · intro hlt
        exact i4 (by omega)

/-- The pivot loop keeps what it has established: recorded pivot rows stay recorded, positions
below the first pivot column processed keep buffer and count, and every recorded pivot row has
its position as minimum. -/
theorem pivot_steps_spec (fuel : Nat) :
    ∀ (n pivot : Nat) (m : bit_mat_s) (tmp_idx found : List Nat)
      (res : bit_mat_s × List Nat × List Nat),
      pivot_steps fuel n pivot m tmp_idx found = Run.ok res →
      pivot_rows_ok pivot m found →
      pivot_rows_ok (pivot + n) res.1 res.2.2 ∧ (∀ i ∈ found, i ∈ res.2.2) ∧
      (∀ k, k < pivot →
        res.1.row_idx[k]? = m.row_idx[k]? ∧ res.1.row_count[k]? = m.row_count[k]?) := by
  intro n
  induction n with
  | zero =>
    intro pivot m tmp_idx found res h hinv
    simp [pivot_steps] at h
    rw [← h]
    exact ⟨hinv, fun i hi => hi, fun _ _ => ⟨rfl, rfl⟩⟩
  | succ n ih =>
    intro pivot m tmp_idx found res h hinv
    simp only [pivot_steps] at h
    obtain ⟨⟨m1, t1, r1⟩, ha, h⟩ := Run.bind_eq_ok.mp h
    obtain ⟨s1, s2, s3, s4⟩ := scan_rows_spec _ _ _ _ _ _ _ ha
    have hd : m1.dim = m.dim := scan_rows_dim _ _ _ _ _ _ _ ha
    simp only [] at h s1 s2 s3 s4
    have hinv1 : pivot_rows_ok (pivot + 1) m1 found := by
      intro i hi
      obtain ⟨q1, q2, buf, cnt, q3, q4, q5⟩ := hinv i hi
      obtain ⟨r1, r2⟩ := s1 i q1
      exact ⟨by omega, by rw [hd]; exact q2, buf, cnt, r1.trans q3, r2.trans q4, q5⟩
    split at h
    · obtain ⟨j1, j2, j3⟩ := ih _ _ _ _ _ h hinv1
      refine ⟨by rw [Nat.add_right_comm, Nat.add_assoc] at j1; exact j1, j2, ?_⟩
      intro k hk
      obtain ⟨u1, u2⟩ := j3 k (by omega)
      obtain ⟨v1, v2⟩ := s1 k hk
      exact ⟨u1.trans v1, u2.trans v2⟩
    · rename_i hrow
      obtain ⟨m3, hm3, h⟩ := Run.bind_eq_ok.mp h
      obtain ⟨w1, w2, w3⟩ := bit_mat_swap_rows_frame hm3
      have hd3 : m3.dim = m1.dim := bit_mat_swap_rows_dim hm3
      have hlt : r1 < pivot + (m.dim - pivot) := by omega
      obtain ⟨buf, cnt, x1, x2, x3⟩ := s4 hlt
      have hinv2 : pivot_rows_ok (pivot + 1) m3 (found ++ [pivot]) := by
        intro i hi
        rw [List.mem_append, List.mem_singleton] at hi
        rcases hi with hi | hi
        · obtain ⟨q1, q2, b2, c2, q3, q4, q5⟩ := hinv1 i hi
          obtain ⟨q0, -, -⟩ := hinv i hi
          obtain ⟨y1, y2⟩ := w3 i (by omega) (by omega)
          exact ⟨q1, by rw [hd3]; exact q2, b2, c2, y1.trans q3, y2.trans q4, q5⟩
        · subst hi
          exact ⟨by omega, by omega, buf, cnt, w1.trans x1, w2.trans x2, x3⟩
      obtain ⟨j1, j2, j3⟩ := ih _ _ _ _ _ h hinv2
      refine ⟨by rw [Nat.add_right_comm, Nat.add_assoc] at j1; exact j1, ?_, ?_⟩
      · intro i hi
        exact j2 i (List.mem_append_left _ hi)
      · intro k hk
        obtain ⟨u1, u2⟩ := j3 k (by omega)
        obtain ⟨y1, y2⟩ := w3 k (by omega) (by omega)
        obtain ⟨v1, v2⟩ := s1 k hk
        exact ⟨u1.trans (y1.trans v1), u2.trans (y2.trans v2)⟩

/-- Running `a + b` pivot columns is running `a` of them and then `b` more. -/
theorem pivot_steps_add (fuel b : Nat) :
    ∀ (a pivot : Nat) (m : bit_mat_s) (tmp_idx found : List Nat),
      pivot_steps fuel (a + b) pivot m tmp_idx found =
        (pivot_steps fuel a pivot m tmp_idx found >>= fun r =>
          pivot_steps fuel b (pivot + a) r.1 r.2.1 r.2.2) := by
  intro a
  induction a with
  | zero =>
    intro pivot m tmp_idx found
    simp [pivot_steps]
  | succ a ih =>
    intro pivot m tmp_idx found
    rw [Nat.succ_add]
    simp only [pivot_steps]
    cases hs : scan_rows fuel pivot (m.dim - pivot) pivot m tmp_idx with
    | fault => rfl
    | timeout => rfl
    | ok r =>
      simp only [Run.ok_bind]
      split
      · rw [ih]
        simp [Nat.add_assoc, Nat.add_comm 1 a]
      · cases hw : bit_mat_swap_rows r.1 r.2.2 pivot with
        | fault => rfl
        | timeout => rfl
        | ok m3 =>
          simp only [Run.ok_bind]
          rw [ih]
          simp [Nat.add_assoc, Nat.add_comm 1 a]

/-- The pivot loop of `get_image_dimension` is `pivot_steps` without its extra results. -/
theorem pivot_loop_eq_steps (fuel : Nat) :
    ∀ (n pivot : Nat) (m : bit_mat_s) (tmp_idx found : List Nat),
      pivot_loop fuel n pivot m tmp_idx =
        (pivot_steps fuel n pivot m tmp_idx found >>= fun r => Run.ok r.1) := by
  intro n
  induction n with
  | zero =>
    intro pivot m tmp_idx found
    rfl
  | succ n ih =>
    intro pivot m tmp_idx found
    simp only [pivot_loop, pivot_steps]
    cases hs : scan_rows fuel pivot (m.dim - pivot) pivot m tmp_idx with
    | fault => rfl
    | timeout => rfl
    | ok r =>
      simp only [Run.ok_bind]
      split
      · exact ih _ _ _ _
      · cases hw : bit_mat_swap_rows r.1 r.2.2 pivot with
        | fault => rfl
        | timeout => rfl
        | ok m3 =>
          simp only [Run.ok_bind]
          exact ih _ _ _ _
/-- C17: in `get_image_dimension`, let the pivot columns `0 .. p - 1` be processed (state
`m1`, recorded pivot columns `f1`) and later the pivot columns `0 .. q - 1` (state `m2`,
recorded `f2`), `p ≤ q`. Then every `i` at which a pivot was found before `p` lies below `p`,
is still recorded after `q`, the row stored at position `i` after `p` is nonempty with
`find_min_elem` equal to `i`, and position `i` holds the very same buffer and count after
`q`: the later pivot columns leave it alone. For `q = dim` the state `m2` is the matrix the
sweep ends with, so at the end every position where a pivot was found holds a nonempty row
whose minimum equals its position. -/
theorem pivot_rows_keep_minimum (fuel p q : Nat) (m m1 m2 : bit_mat_s)
    (t1 t2 f1 f2 : List Nat) (hdim : m.dim ≤ SIZE_MAX) (hpq : p ≤ q)
    (h1 : pivot_steps fuel p 0 m (List.replicate m.dim 0) [] = Run.ok (m1, t1, f1))
    (h2 : pivot_steps fuel q 0 m (List.replicate m.dim 0) [] = Run.ok (m2, t2, f2)) :
    (∀ i ∈ f1, i < p ∧ i ∈ f2 ∧
      ∃ buf cnt, m1.row_idx[i]? = some buf ∧ m1.row_count[i]? = some cnt ∧ cnt ≠ 0 ∧
        find_min_elem buf cnt = Run.ok i ∧
        m2.row_idx[i]? = some buf ∧ m2.row_count[i]? = some cnt) ∧
    (q = m.dim → sweep fuel m = Run.ok m2) := by
  constructor
  · obtain ⟨d, rfl⟩ := Nat.exists_eq_add_of_le hpq
    rw [pivot_steps_add, h1, Run.ok_bind] at h2
    have hinv0 : pivot_rows_ok 0 m [] := fun i hi => absurd hi (List.not_mem_nil i)
    obtain ⟨a1, -, -⟩ := pivot_steps_spec _ _ _ _ _ _ _ h1 hinv0
    obtain ⟨-, b2, b3⟩ := pivot_steps_spec _ _ _ _ _ _ _ h2 a1
    have hd1 : m1.dim = m.dim := by
      have hl := pivot_loop_eq_steps fuel p 0 m (List.replicate m.dim 0) []
      rw [h1, Run.ok_bind] at hl
      exact pivot_loop_dim _ _ _ _ _ _ hl
    intro i hi
    obtain ⟨q1, q2, buf, cnt, q3, q4, q5⟩ := a1 i hi
    simp only [Nat.zero_add] at q1 b3
    obtain ⟨r1, r2⟩ := b3 i q1
    refine ⟨q1, b2 i hi, buf, cnt, q3, q4, ?_, q5, r1.trans q3, r2.trans q4⟩
    intro hc
    subst hc
    have hmax : find_min_elem buf 0 = Run.ok SIZE_MAX := rfl
    rw [hmax] at q5
    have := Run.ok.inj q5
    simp only [] at q2
    omega
  · intro hq
    subst hq
    unfold sweep
    rw [pivot_loop_eq_steps fuel m.dim 0 m (List.replicate m.dim 0) [], h2]
    rfl

/-- Witness for C17 on the matrix of the 3 by 3 grid: the state after the pivot columns
0, 1, 2 and the state at the end of the sweep. -/
theorem pivot_rows_keep_minimum_witness :
    (grid_three.dim ≤ SIZE_MAX ∧ 3 ≤ 9 ∧
      pivot_steps 4 3 0 grid_three (List.replicate grid_three.dim 0) [] =
        Run.ok (grid_three_mid, [2, 0, 0, 1, 0, 0, 0, 0, 0], [0, 1, 2]) ∧
      pivot_steps 4 9 0 grid_three (List.replicate grid_three.dim 0) [] =
        Run.ok (grid_three_swept, [5, 1, 1, 1, 0, 0, 0, 0, 0], [0, 1, 2, 3, 4, 5])) ∧
    ((∀ i ∈ [0, 1, 2], i < 3 ∧ i ∈ [0, 1, 2, 3, 4, 5] ∧
      ∃ buf cnt, grid_three_mid.row_idx[i]? = some buf ∧
        grid_three_mid.row_count[i]? = some cnt ∧ cnt ≠ 0 ∧
        find_min_elem buf cnt = Run.ok i ∧
        grid_three_swept.row_idx[i]? = some buf ∧
        grid_three_swept.row_count[i]? = some cnt) ∧
     (9 = grid_three.dim → sweep 4 grid_three = Run.ok grid_three_swept)) :=
  ⟨⟨by decide, by decide, by decide, by decide⟩,
    pivot_rows_keep_minimum 4 3 9 grid_three grid_three_mid grid_three_swept
      [2, 0, 0, 1, 0, 0, 0, 0, 0] [5, 1, 1, 1, 0, 0, 0, 0, 0] [0, 1, 2] [0, 1, 2, 3, 4, 5]
      (by decide) (by decide) (by decide) (by decide)⟩
/-! ## Failing inputs of the sweep, by evaluation -/

theorem Run.approx_fault {α : Type} {x y : Run α} (h : Run.approx x y)
    (hx : x = Run.fault) : y = Run.fault := by
  rcases h with h | h
  · rw [h] at hx; cases hx
  · rw [← h]; exact hx

/-- C15, at a failing input: the first scanned row of `get_image_dimension(generate_matrix(2))`
is `{1, 2}` with `row_count = 2`, and the caching step copies 2 bytes instead of 2 cells. After
it `tmp_cnt = 2` and `tmp_idx[0] = 1`, but `tmp_idx[1]` is what the scratch buffer held before
(0 in the fresh buffer, 9 in a buffer filled with nines), not `row_idx[0][1] = 2`. -/
theorem cache_row_copies_bytes :
    grid_two.row_idx[0]? = some [1, 2] ∧ grid_two.row_count[0]? = some 2 ∧
      cache_row grid_two 0 (List.replicate grid_two.dim 0) = Run.ok ([1, 0, 0, 0], 2) ∧
      cache_row grid_two 0 [9, 9, 9, 9] = Run.ok ([1, 9, 9, 9], 2) := by
  decide

/-- C16, at a failing input: on the matrix with the rows `{0, 1, 2}`, `{1}`, `{2}`, whose
bookkeeping is consistent, `bit_mat_swap_rows(m, 0, 1)` exchanges buffers and counts but leaves
`row_reserved` as it was. Afterwards position 1 has `row_count = 3` above `row_reserved = 1`,
position 0 records capacity 3 for a buffer of one cell, and `bit_mat_set_row` of two cells
there stores outside the buffer. The sweep of `get_image_dimension` on the matrix of the
3 by 3 grid also ends with inconsistent bookkeeping. -/
theorem swap_breaks_capacity_bookkeeping :
    ∃ m m2, build_matrix [[0, 1, 2], [1], [2]] = Run.ok m ∧ capacity_consistent m = true ∧
      bit_mat_swap_rows m 0 1 = Run.ok m2 ∧ m2.row_reserved = m.row_reserved ∧
      capacity_consistent m2 = false ∧
      m2.row_idx[0]? = some [1] ∧ m2.row_reserved[0]? = some 3 ∧
      m2.row_count[1]? = some 3 ∧ m2.row_reserved[1]? = some 1 ∧
      bit_mat_set_row m2 0 [0, 2] 2 = Run.fault ∧
      sweep 4 grid_three = Run.ok grid_three_swept ∧
      capacity_consistent grid_three_swept = false := by
  refine ⟨{ row_idx := [[0, 1, 2], [1], [2]], row_count := [3, 1, 1],
            row_reserved := [3, 1, 1], dim := 3, alloc_cnt := 7 },
          { row_idx := [[1], [0, 1, 2], [2]], row_count := [1, 3, 1],
            row_reserved := [3, 1, 1], dim := 3, alloc_cnt := 7 },
          by decide, by decide, by decide, rfl, by decide, rfl, rfl, rfl, rfl, by decide,
          by decide, by decide⟩

theorem stuck_sweep_loop : ∀ fuel, sweep_loop stuck_state 1 fuel [0, 0] 1 = Run.timeout := by
  intro fuel
  induction fuel with
  | zero => rfl
  | succ fuel ih =>
    have e1 : find_min_elem [0, 0] 1 = Run.ok 0 := by decide
    have e2 : rd stuck_state.row_idx 0 = Run.ok [0, 0] := by decide
    have e3 : rd stuck_state.row_count 0 = Run.ok 2 := by decide
    have e4 : flip_loop [0, 0] 2 0 [0, 0] 1 = Run.ok ([0, 0], 1) := by decide
    simp only [sweep_loop, e1, Run.ok_bind, e2, e3, e4]
    simpa using ih

/-- C18, at a failing input: on the matrix of dimension 2 with the rows `{0, 1}` and `{0}`
(duplicate-free, indices below `dim`) `get_image_dimension` does not terminate. The byte-counted
caching step leaves `{0, 0}` at position 0. For pivot 1 the scratch buffer holds `{0}`, its
minimum 0 is below the pivot, and the pass over the row at position 0 removes 0 and adds it
again, so the scratch buffer is the same after the pass and the `while` loop goes on for
ever. -/
theorem get_image_dimension_never_ends :
    build_matrix [[0, 1], [0]] = Run.ok stuck_input ∧ rows_of stuck_input = [[0, 1], [0]] ∧
      (∀ fuel, get_image_dimension fuel stuck_input = Run.timeout) ∧
      pivot_steps 1 1 0 stuck_input (List.replicate stuck_input.dim 0) [] =
        Run.ok (stuck_state, [0, 0], [0]) ∧
      cache_row stuck_state 1 [0, 0] = Run.ok ([0, 0], 1) ∧
      find_min_elem [0, 0] 1 = Run.ok 0 ∧ stuck_state.row_idx[0]? = some [0, 0] ∧
      flip_loop [0, 0] 2 0 [0, 0] 1 = Run.ok ([0, 0], 1) := by
  refine ⟨by decide, by decide, ?_, by decide, by decide, by decide, rfl, by decide⟩
  intro fuel
  rcases Nat.eq_zero_or_pos fuel with h0 | hpos
  · subst h0
    decide
  · obtain ⟨k, rfl⟩ : ∃ k, fuel = 1 + k := ⟨fuel - 1, by omega⟩
    have hscan0 : scan_rows (1 + k) 0 (stuck_input.dim - 0) 0 stuck_input
        (List.replicate stuck_input.dim 0) = Run.ok (stuck_state, [0, 0], 0) :=
      Run.approx_ok (scan_rows_approx 1 k 0 _ _ _ _) (by decide)
    have hswap : bit_mat_swap_rows stuck_state 0 0 = Run.ok stuck_state := by decide
    have hcache : cache_row stuck_state 1 [0, 0] = Run.ok ([0, 0], 1) := by decide
    have hdim : stuck_state.dim - 1 = 1 := by decide
    have hge : ¬ (0 ≥ stuck_state.dim) := by decide
    have hscan1 : scan_rows (1 + k) 1 (stuck_state.dim - 1) 1 stuck_state [0, 0] =
        Run.timeout := by
      rw [hdim]
      simp only [scan_rows, hcache, Run.ok_bind, stuck_sweep_loop, Run.timeout_bind]
    have hdim2 : stuck_input.dim = 2 := rfl
    unfold get_image_dimension sweep
    rw [hdim2]
    have hp : pivot_loop (1 + k) 2 0 stuck_input (List.replicate 2 0) = Run.timeout := by
      simp only [pivot_loop]
      rw [show List.replicate 2 0 = List.replicate stuck_input.dim 0 from rfl, hscan0]
      simp only [Run.ok_bind, hge, if_false, hswap, hscan1, Run.timeout_bind]
    rw [hp]
    rfl

/-- C19, at failing inputs. On the matrix of dimension 3 with the rows `{2}`, `{1, 2}`,
`{0, 1, 2}` (duplicate-free, indices below `dim`) the caching step for row 2 leaves the
scratch buffer at `{0, 0, 0}` with `tmp_cnt = 3`, and the next `flip_elem_unsafe`, for index 1,
stores at `tmp_idx[3]` with `tmp_cnt = 3 = dim`, outside the buffer: the run ends there. On
the matrix of dimension 2 with the rows `{0, 1}`, `{1}` the sweep ends, with the duplicate
`{0, 0}` stored at position 0. -/
theorem sweep_breaks_row_invariants :
    ∃ m, build_matrix [[2], [1, 2], [0, 1, 2]] = Run.ok m ∧
      rows_of m = [[2], [1, 2], [0, 1, 2]] ∧
      (∀ k, get_image_dimension (1 + k) m = Run.fault) ∧
      cache_row m 2 [2, 0, 0] = Run.ok ([0, 0, 0], 3) ∧ ¬ ([0, 0, 0].take 3).Nodup ∧
      flip_elem_unsafe [0, 0, 0] 3 1 = Run.fault ∧
      ∃ m3 m4, build_matrix [[0, 1], [1]] = Run.ok m3 ∧ rows_of m3 = [[0, 1], [1]] ∧
        sweep 1 m3 = Run.ok m4 ∧ rows_of m4 = [[0, 0], [1]] := by
  refine ⟨{ row_idx := [[2], [1, 2], [0, 1, 2]], row_count := [1, 2, 3],
            row_reserved := [1, 2, 3], dim := 3, alloc_cnt := 7 },
          by decide, by decide, ?_, by decide, by decide, by decide,
          { row_idx := [[0, 1], [1]], row_count := [2, 1], row_reserved := [2, 1], dim := 2,
            alloc_cnt := 6 },
          { row_idx := [[0, 0], [1]], row_count := [2, 1], row_reserved := [2, 1], dim := 2,
            alloc_cnt := 6 }, by decide, by decide, by decide, by decide⟩
  intro k
  exact Run.approx_fault (get_image_dimension_approx 1 k _) (by decide)

/-! ## Storing a row where the recorded capacity is stale -/

/-- C12, at failing inputs. After `get_image_dimension(generate_matrix(3))` the matrix holds
at position 3 a buffer of two cells, `{3, 7}`, moved there by `bit_mat_swap_rows`, while
`row_reserved[3]` is still 3. `bit_mat_set_row(m, 3, {0, 1, 2}, 3)` therefore skips the
`realloc` and copies three cells into the two-cell buffer: it stores outside the buffer, and
nothing can be read back. The same happens on the matrix with the rows `{0, 1}`, `{1}` after
`bit_mat_swap_rows(m, 0, 1)`: position 0 holds the one-cell buffer `{1}` with recorded
capacity 2, and `bit_mat_set_row(m, 0, {1, 0}, 2)` stores outside it. -/
theorem set_row_overruns_stale_capacity :
    generate_matrix 3 = Run.ok grid_three ∧ sweep 4 grid_three = Run.ok grid_three_swept ∧
      3 < grid_three_swept.dim ∧ grid_three_swept.row_idx[3]? = some [3, 7] ∧
      grid_three_swept.row_reserved[3]? = some 3 ∧
      [0, 1, 2].Nodup ∧ [0, 1, 2].length = 3 ∧
      bit_mat_set_row grid_three_swept 3 [0, 1, 2] 3 = Run.fault ∧
      ∃ m m2, build_matrix [[0, 1], [1]] = Run.ok m ∧ bit_mat_swap_rows m 0 1 = Run.ok m2 ∧
        m2.row_idx[0]? = some [1] ∧ m2.row_reserved[0]? = some 2 ∧
        [1, 0].Nodup ∧ bit_mat_set_row m2 0 [1, 0] 2 = Run.fault := by
  refine ⟨by decide, by decide, by decide, rfl, rfl, by decide, rfl, by decide,
    { row_idx := [[0, 1], [1]], row_count := [2, 1], row_reserved := [2, 1], dim := 2,
      alloc_cnt := 6 },
    { row_idx := [[1], [0, 1]], row_count := [1, 2], row_reserved := [2, 1], dim := 2,
      alloc_cnt := 6 }, by decide, by decide, rfl, rfl, by decide, by decide⟩

end Flip
